import Mathlib

/-!
# Verification of the page-replacement simulator

Shallow embedding of the trace-driven eviction engine of
`memory-management-go` (`src/main.go`): the optimal (Belady lookahead)
policy `OptimalAlgorithm`, the clock (second-chance) policy
`ClockAlgorithm`, the per-run load counter, and the `Run` driver, together
with proofs of the specification's testable properties.

Pages are identified by strings (the Go `PageID`).  The Go auxiliary maps
(`inMemory`, `frameMap`, `pageToFrame`) are kept in sync with the frame
array by the source; the embedding queries the frame array directly, which
is the synchronised content of those maps.  Go's `map[string]int` counters
are embedded as total functions `Page → Nat` defaulting to `0`, exactly the
read semantics of a Go map.
-/

namespace PagingSim

abbrev Page := String

/-- `PAGE_SIZE` from `main.go`. -/
def PAGE_SIZE : Nat := 4096

/-- Increment of a Go counter map: `m[p]++`. -/
def bumpLoad (loads : Page → Nat) (p : Page) : Page → Nat :=
  fun q => if q = p then loads q + 1 else loads q

/-! ## Optimal (Belady) algorithm, `main.go` lines 120–194 -/

/-- `pageAccessPositions[q]`: the ascending list of indices at which page
`q` is accessed (built in one pass over the trace in the source). -/
def positionsOf (trace : List Page) (q : Page) : List Nat :=
  (List.range trace.length).filter (fun j => trace.get? j = some q)

/-- `sort.SearchInts(positions, i+1)` followed by the bounds check: the
first recorded position `≥ i+1`, i.e. the next use strictly after `i`
(`none` when the page is never used again).  On the ascending `positionsOf`
list the binary search returns exactly the first such element. -/
def nextUseAfter (positions : List Nat) (i : Nat) : Option Nat :=
  positions.find? (fun pos => decide (i + 1 ≤ pos))

/-- The victim-selection scan of `OptimalAlgorithm`: walk the frames in
index order carrying `farthest`/`victimIndex` accumulators (both start at
`-1`), break immediately on a page with no next use, otherwise replace the
current best exactly when the next use is strictly greater. -/
def optVictimGo (key : Page → Option Nat) : List Page → Nat → Int → Int → Int
  | [], _, _, victim => victim
  | q :: rest, idx, farthest, victim =>
    match key q with
    | none => Int.ofNat idx
    | some nextUse =>
      if farthest < (nextUse : Int) then
        optVictimGo key rest (idx + 1) (nextUse : Int) (Int.ofNat idx)
      else
        optVictimGo key rest (idx + 1) farthest victim

/-- Victim frame index chosen by `OptimalAlgorithm` on a fault with no free
frame. -/
def optVictimIdx (key : Page → Option Nat) (frames : List Page) : Nat :=
  (optVictimGo key frames 0 (-1) (-1)).toNat

/-- State threaded through the `OptimalAlgorithm` replay loop.  `evicts`
counts executions of the replacement branch (ghost instrumentation, never
read by the algorithm). -/
structure OptState where
  frames : List Page
  faults : Nat
  loads : Page → Nat
  evicts : Nat

/-- The body of the `for i, access := range s.accesses` loop of
`OptimalAlgorithm` at position `i` accessing page `p`. -/
def optStep (trace : List Page) (F : Nat) (st : OptState) (i : Nat) (p : Page) :
    OptState :=
  if p ∈ st.frames then st
  else
    let st' : OptState :=
      { st with faults := st.faults + 1, loads := bumpLoad st.loads p }
    if st'.frames.length < F then
      { st' with frames := st'.frames ++ [p] }
    else
      let k := optVictimIdx (fun q => nextUseAfter (positionsOf trace q) i) st'.frames
      { st' with frames := st'.frames.set k p, evicts := st'.evicts + 1 }

/-- The replay loop of `OptimalAlgorithm` over the indexed accesses. -/
def optLoop (trace : List Page) (F : Nat) : List (Nat × Page) → OptState → OptState
  | [], st => st
  | (i, p) :: rest, st => optLoop trace F rest (optStep trace F st i p)

def optInit : OptState := ⟨[], 0, fun _ => 0, 0⟩

/-- `OptimalAlgorithm` with `totalFrames = F`: fresh frame list, fresh load
counter, replay the whole trace. -/
def optimalAlgorithm (trace : List Page) (F : Nat) : OptState :=
  optLoop trace F (List.enumFrom 0 trace) optInit

def optFaults (trace : List Page) (F : Nat) : Nat :=
  (optimalAlgorithm trace F).faults

def optLoads (trace : List Page) (F : Nat) : Page → Nat :=
  (optimalAlgorithm trace F).loads

def optEvicts (trace : List Page) (F : Nat) : Nat :=
  (optimalAlgorithm trace F).evicts

/-! ## Clock algorithm, `main.go` lines 197–271 -/

/-- One `PageFrame` of the clock policy (`nil` pointers are embedded as
`none` around this structure). -/
structure ClockFrame where
  pageID : Page
  referenced : Bool
  loadCount : Nat
deriving DecidableEq

/-- State threaded through the `ClockAlgorithm` replay loop. -/
structure ClockState where
  frames : List (Option ClockFrame)
  pointer : Nat
  faults : Nat
  loads : Page → Nat
  evicts : Nat

/-- `pageToFrame` lookup: the index of the frame holding `p`, if any
(the map is kept in sync with the frame array by the source). -/
def lookupFrame (frames : List (Option ClockFrame)) (p : Page) : Option Nat :=
  frames.findIdx? (fun o => match o with
    | some fr => decide (fr.pageID = p)
    | none => false)

/-- The unbounded `for {}` victim search of `ClockAlgorithm`, given enough
`fuel`: at the pointed frame, an unreferenced page is the victim (its index
is returned together with the frames as mutated so far); a referenced page
loses its bit and the hand advances circularly.  A `nil` frame would be a
nil-pointer dereference in the source and yields `none`, as does running
out of fuel. -/
def clockScan (F : Nat) : Nat → List (Option ClockFrame) → Nat →
    Option (Nat × List (Option ClockFrame))
  | 0, _, _ => none
  | fuel + 1, frames, ptr =>
    match frames.get? ptr with
    | some (some fr) =>
      if fr.referenced then
        clockScan F fuel (frames.set ptr (some { fr with referenced := false }))
          ((ptr + 1) % F)
      else some (ptr, frames)
    | _ => none

/-- The body of the `ClockAlgorithm` loop accessing page `p`.  The victim
scan is run with fuel `2 * F`, which theorem `clockScan_isSome_of_full`
shows is never exhausted when every frame is occupied. -/
def clockStep (F : Nat) (st : ClockState) (p : Page) : Option ClockState :=
  match lookupFrame st.frames p with
  | some k =>
    match st.frames.get? k with
    | some (some fr) =>
      some { st with frames := st.frames.set k (some { fr with referenced := true }) }
    | _ => none
  | none =>
    let st' : ClockState :=
      { st with faults := st.faults + 1, loads := bumpLoad st.loads p }
    match st'.frames.findIdx? (fun o => o.isNone) with
    | some e => some { st' with frames := st'.frames.set e (some ⟨p, true, 1⟩) }
    | none =>
      match clockScan F (2 * F) st'.frames st'.pointer with
      | some (v, frames') =>
        some { st' with frames := frames'.set v (some ⟨p, true, 1⟩),
                        pointer := (v + 1) % F, evicts := st'.evicts + 1 }
      | none => none

/-- The replay loop of `ClockAlgorithm`. -/
def clockRun (F : Nat) : List Page → ClockState → Option ClockState
  | [], st => some st
  | p :: rest, st =>
    match clockStep F st p with
    | some st' => clockRun F rest st'
    | none => none

def clockInit (F : Nat) : ClockState :=
  ⟨List.replicate F none, 0, 0, fun _ => 0, 0⟩

/-- `ClockAlgorithm` with `totalFrames = F`. -/
def clockAlgorithm (trace : List Page) (F : Nat) : Option ClockState :=
  clockRun F trace (clockInit F)

def clockFaults (trace : List Page) (F : Nat) : Nat :=
  ((clockAlgorithm trace F).map ClockState.faults).getD 0

def clockLoads (trace : List Page) (F : Nat) : Page → Nat :=
  ((clockAlgorithm trace F).map ClockState.loads).getD (fun _ => 0)

def clockEvicts (trace : List Page) (F : Nat) : Nat :=
  ((clockAlgorithm trace F).map ClockState.evicts).getD 0

/-- Number of distinct pages of the trace (`len(s.distinctPages)`). -/
def distinctCount (trace : List Page) : Nat := trace.toFinset.card

/-! ## Simulator-level sequencing

`s.pageLoadCount` is a single field of the `Simulator`; each policy method
begins with `s.pageLoadCount = make(map[string]int)`, so the field value a
method receives is discarded and the value it leaves behind is that run's
counter.  `Run` executes OPT (unless skipped) and then Clock on this shared
field and reports the field's final value. -/

/-- `(*Simulator).OptimalAlgorithm` as a transformer of the shared
`pageLoadCount` field: the incoming value is overwritten by a fresh map
(line 125) before the replay, and the run's counter is left in the field. -/
def optimalAlgorithmS (trace : List Page) (F : Nat) (_pageLoadCount : Page → Nat) :
    Nat × (Page → Nat) :=
  (optFaults trace F, optLoads trace F)

/-- `(*Simulator).ClockAlgorithm` as a transformer of the shared
`pageLoadCount` field (fresh map at line 203). -/
def clockAlgorithmS (trace : List Page) (F : Nat) (_pageLoadCount : Page → Nat) :
    Nat × (Page → Nat) :=
  (clockFaults trace F, clockLoads trace F)

/-- What `Run` hands to the reporting code: OPT faults (`-1` sentinel when
skipped), clock faults, and the final value of the shared `pageLoadCount`
field, which is what `ShowLoadCount` prints. -/
structure RunReport where
  optimalFaults : Int
  clockFaultCount : Nat
  pageLoadCount : Page → Nat

/-- The policy phase of `Run`: OPT first (unless `skipOptimal`), then Clock,
both threading the one shared `pageLoadCount` field. -/
def runPolicies (trace : List Page) (F : Nat) (skipOptimal : Bool)
    (loads0 : Page → Nat) : RunReport :=
  let optPhase : Int × (Page → Nat) :=
    if skipOptimal then (-1, loads0)
    else ((optimalAlgorithmS trace F loads0).1, (optimalAlgorithmS trace F loads0).2)
  let clockPhase := clockAlgorithmS trace F optPhase.2
  ⟨optPhase.1, clockPhase.1, clockPhase.2⟩

/-- Outcome of `Run`: either the configuration-error early return
(`totalFrames == 0`, lines 348–351) with no replay attempted, or the report
of both policy runs. -/
inductive RunOutcome where
  | configError : RunOutcome
  | report : RunReport → RunOutcome

/-- `totalFrames = memorySize / PAGE_SIZE` (`NewSimulator`). -/
def totalFramesOf (memorySize : Nat) : Nat := memorySize / PAGE_SIZE

/-- `(*Simulator).Run` on a loaded trace. -/
def runSimulator (memorySize : Nat) (trace : List Page) (skipOptimal : Bool) :
    RunOutcome :=
  if totalFramesOf memorySize = 0 then RunOutcome.configError
  else RunOutcome.report (runPolicies trace (totalFramesOf memorySize) skipOptimal (fun _ => 0))

/-! ## Specification-side victim descriptions

These definitions follow the wording of the specification (not the source)
and are compared with the source-derived functions in the claim theorems. -/

/-- Modelled from the spec wording for the OPT victim: a resident page with
no occurrence strictly after the current position is an immediate victim,
lowest frame index first; otherwise the resident page whose next occurrence
is furthest in the future, ties broken in favour of the first-encountered
frame index. -/
def specOptVictim (key : Page → Option Nat) (frames : List Page) : Nat :=
  if frames.any (fun q => (key q).isNone) then
    frames.findIdx (fun q => (key q).isNone)
  else
    frames.findIdx (fun q =>
      decide (WithBot.some ((key q).getD 0) =
        (frames.map (fun r => ((key r).getD 0 : Nat))).maximum))

/-- Referenced bit of the frame at index `i` (`false` for an empty slot or
an out-of-range index). -/
def refAt (frames : List (Option ClockFrame)) (i : Nat) : Bool :=
  match frames.get? i with
  | some (some fr) => fr.referenced
  | _ => false

/-- Modelled from the spec wording for the clock victim scan: number of
referenced frames the scan clears before stopping, i.e. the least `k < F`
such that the frame at `(ptr + k) % F` is unreferenced, and `F` itself when
every frame is referenced (the wrapped-around hand position, whose bit was
cleared on the first pass). -/
def clockVictimSteps (frames : List (Option ClockFrame)) (ptr F : Nat) : Nat :=
  List.findIdx (fun k => !refAt frames ((ptr + k) % F)) (List.range F)

/-- Clear the referenced bit of the frame at index `i`. -/
def clearedAt (frames : List (Option ClockFrame)) (i : Nat) :
    List (Option ClockFrame) :=
  match frames.get? i with
  | some (some fr) => frames.set i (some { fr with referenced := false })
  | _ => frames

/-- Clear the referenced bits of the `m` frames visited from the hand
position: indices `(ptr + 0) % F, …, (ptr + m - 1) % F`. -/
def clearVisited (frames : List (Option ClockFrame)) (ptr F : Nat) :
    Nat → List (Option ClockFrame)
  | 0 => frames
  | m + 1 => clearedAt (clearVisited frames ptr F m) ((ptr + m) % F)

/-! ## Canonical Belady cost

`bcost` is a cache-passing restatement of the Belady replacement over
`Finset` caches with a canonical victim choice; it is proved equal to the
fold-based `optimalAlgorithm` and is the vehicle for the optimality and
monotonicity arguments. -/

/-- Index of the first occurrence of `q` in `t` (`t.length` when `q` does
not occur): the "next use" of a resident page relative to the remaining
trace, with "never used again" encoded as the maximal value. -/
def nextInf (t : List Page) (q : Page) : Nat := t.findIdx (fun x => decide (x = q))

/-- Canonical Belady victim over a `Finset` cache: an element maximising
`nextInf` (pages never used again all carry the maximal key `t.length`, so
any of them wins when one exists; `argmax` over the sorted elements fixes
the choice deterministically). -/
def bvictim (t : List Page) (C : Finset Page) : Page :=
  ((C.sort (· ≤ ·)).argmax (nextInf t)).getD ""

/-- Belady fault count from cache `C` over the remaining trace. -/
def bcost (F : Nat) : List Page → Finset Page → Nat
  | [], _ => 0
  | p :: t, C =>
    if p ∈ C then bcost F t C
    else if C.card < F then bcost F t (insert p C) + 1
    else bcost F t (insert p (C.erase (bvictim t C))) + 1

/-- Demand-paging executions with at most `F` resident pages: on a hit the
cache is unchanged; on a fault the page is brought in, optionally evicting
one resident page, and the fault is counted.  Both policy engines produce
executions of this shape. -/
inductive Reach (F : Nat) : List Page → Finset Page → Nat → Prop where
  | nil (C) : Reach F [] C 0
  | hit {p t C n} : p ∈ C → Reach F t C n → Reach F (p :: t) C n
  | grow {p t C n} : p ∉ C → C.card < F → Reach F t (insert p C) n →
      Reach F (p :: t) C (n + 1)
  | evict {p t C n} (q : Page) : p ∉ C → q ∈ C →
      Reach F t (insert p (C.erase q)) n → Reach F (p :: t) C (n + 1)

/-- Pages resident in a clock frame list, in frame order. -/
def framePages (frames : List (Option ClockFrame)) : List Page :=
  frames.filterMap (fun o => o.map ClockFrame.pageID)

/-- Number of frames whose referenced bit is set. -/
def countRef (frames : List (Option ClockFrame)) : Nat :=
  frames.countP (fun o => match o with
    | some fr => fr.referenced
    | none => false)

/-- Slot-by-slot page content of a clock frame list (ignoring the
referenced bits and load counts). -/
def pagesOf (frames : List (Option ClockFrame)) : List (Option Page) :=
  frames.map (fun o => o.map ClockFrame.pageID)

/-- Structural invariant of the clock state: the frame array has exactly
`totalFrames` slots, the hand is in range, and no page occupies two
frames. -/
def ClockInv (F : Nat) (st : ClockState) : Prop :=
  st.frames.length = F ∧ st.pointer < F ∧ (framePages st.frames).Nodup

/-! # Theorems -/

/-- Characterisation of the `OptimalAlgorithm` victim scan, for arbitrary
accumulator values: either no frame beats the incoming `farthest` bound and
the incoming `victimIndex` is returned, or the scan settles on a frame `j`
that is the first never-used-again frame, or carries the strictly first
maximal next use. -/
lemma optVictimGo_char (key : Page → Option Nat) :
    ∀ (frames : List Page) (idx : Nat) (far vict : Int),
      ((∀ q ∈ frames, ∃ n : Nat, key q = some n ∧ (n : Int) ≤ far) ∧
        optVictimGo key frames idx far vict = vict) ∨
      (∃ j, ∃ hj : j < frames.length,
        optVictimGo key frames idx far vict = Int.ofNat (idx + j) ∧
        ((key (frames.get ⟨j, hj⟩) = none ∧
            ∀ i (hi : i < frames.length), i < j → (key (frames.get ⟨i, hi⟩)).isSome) ∨
          (∃ m : Nat, key (frames.get ⟨j, hj⟩) = some m ∧ far < (m : Int) ∧
            (∀ i (hi : i < frames.length), ∃ n : Nat,
              key (frames.get ⟨i, hi⟩) = some n ∧ n ≤ m) ∧
            (∀ i (hi : i < frames.length), i < j →
              ∃ n : Nat, key (frames.get ⟨i, hi⟩) = some n ∧ n < m)))) := by
  intro frames
  induction frames with
  | nil =>
    intro idx far vict
    exact Or.inl ⟨by simp, rfl⟩
  | cons q rest ih =>
    intro idx far vict
    cases hkq : key q with
    | none =>
      right
      refine ⟨0, by simp, by simp [optVictimGo, hkq], Or.inl ⟨hkq, ?_⟩⟩
      intro i hi hij
      omega
    | some v =>
      by_cases hfar : far < (v : Int)
      · have h := ih (idx + 1) (v : Int) (Int.ofNat idx)
        have hunf : optVictimGo key (q :: rest) idx far vict =
            optVictimGo key rest (idx + 1) (v : Int) (Int.ofNat idx) := by
          simp [optVictimGo, hkq, hfar]
        rcases h with ⟨hall, heq⟩ | ⟨j, hj, heq, hchar⟩
        · right
          refine ⟨0, by simp, by rw [hunf, heq]; simp, Or.inr ⟨v, hkq, hfar, ?_, ?_⟩⟩
          · intro i hi
            match i, hi with
            | 0, _ => exact ⟨v, hkq, le_refl v⟩
            | i + 1, hi =>
              rcases hall (rest.get ⟨i, by simpa using hi⟩) (List.get_mem rest i _) with
                ⟨n, hn, hle⟩
              exact ⟨n, hn, by exact_mod_cast hle⟩
          · intro i hi hij
            omega
        · right
          refine ⟨j + 1, by simpa using hj, ?_, ?_⟩
          · rw [hunf, heq]
            congr 1
            omega
          rcases hchar with ⟨hnone, hpre⟩ | ⟨m, hm, hfarm, hallle, hpre⟩
          · refine Or.inl ⟨hnone, ?_⟩
            intro i hi hij
            match i, hi with
            | 0, _ => simp [hkq]
            | i + 1, hi => exact hpre i (by simpa using hi) (by omega)
          · refine Or.inr ⟨m, hm, lt_trans hfar hfarm, ?_, ?_⟩
            · intro i hi
              match i, hi with
              | 0, _ =>
                exact ⟨v, hkq, le_of_lt (by exact_mod_cast hfarm)⟩
              | i + 1, hi => exact hallle i (by simpa using hi)
            · intro i hi hij
              match i, hi with
              | 0, _ => exact ⟨v, hkq, by exact_mod_cast hfarm⟩
              | i + 1, hi => exact hpre i (by simpa using hi) (by omega)
      · have h := ih (idx + 1) far vict
        have hunf : optVictimGo key (q :: rest) idx far vict =
            optVictimGo key rest (idx + 1) far vict := by
          simp [optVictimGo, hkq, hfar]
        rcases h with ⟨hall, heq⟩ | ⟨j, hj, heq, hchar⟩
        · left
          refine ⟨?_, by rw [hunf, heq]⟩
          intro q' hq'
          rcases List.mem_cons.mp hq' with rfl | hmem
          · exact ⟨v, hkq, not_lt.mp hfar⟩
          · exact hall q' hmem
        · right
          refine ⟨j + 1, by simpa using hj, ?_, ?_⟩
          · rw [hunf, heq]
            congr 1
            omega
          rcases hchar with ⟨hnone, hpre⟩ | ⟨m, hm, hfarm, hallle, hpre⟩
          · refine Or.inl ⟨hnone, ?_⟩
            intro i hi hij
            match i, hi with
            | 0, _ => simp [hkq]
            | i + 1, hi => exact hpre i (by simpa using hi) (by omega)
          · have hvm : (v : Int) < (m : Int) := lt_of_le_of_lt (not_lt.mp hfar) hfarm
            refine Or.inr ⟨m, hm, hfarm, ?_, ?_⟩
            · intro i hi
              match i, hi with
              | 0, _ => exact ⟨v, hkq, le_of_lt (by exact_mod_cast hvm)⟩
              | i + 1, hi => exact hallle i (by simpa using hi)
            · intro i hi hij
              match i, hi with
              | 0, _ => exact ⟨v, hkq, by exact_mod_cast hvm⟩
              | i + 1, hi => exact hpre i (by simpa using hi) (by omega)

/-- The victim scan at its call site (`farthest = victimIndex = -1`): the
chosen frame is either the first never-used-again frame (all earlier frames
alive), or carries the maximal next use, strictly above every earlier
frame's next use. -/
lemma optVictimIdx_char (key : Page → Option Nat) (frames : List Page)
    (hne : frames ≠ []) :
    ∃ hj : optVictimIdx key frames < frames.length,
      ((key (frames.get ⟨optVictimIdx key frames, hj⟩) = none ∧
          ∀ i (hi : i < frames.length), i < optVictimIdx key frames →
            (key (frames.get ⟨i, hi⟩)).isSome) ∨
        (∃ m : Nat, key (frames.get ⟨optVictimIdx key frames, hj⟩) = some m ∧
          (∀ i (hi : i < frames.length), ∃ n : Nat,
            key (frames.get ⟨i, hi⟩) = some n ∧ n ≤ m) ∧
          (∀ i (hi : i < frames.length), i < optVictimIdx key frames →
            ∃ n : Nat, key (frames.get ⟨i, hi⟩) = some n ∧ n < m))) := by
  rcases optVictimGo_char key frames 0 (-1) (-1) with ⟨hall, _⟩ | ⟨j, hj, heq, hchar⟩
  · rcases List.exists_mem_of_ne_nil frames hne with ⟨q, hq⟩
    rcases hall q hq with ⟨n, _, hle⟩
    exact absurd hle (by omega)
  · have hv : optVictimIdx key frames = j := by
      unfold optVictimIdx
      rw [heq]
      simp
    rw [hv]
    refine ⟨hj, ?_⟩
    rcases hchar with ⟨hnone, hpre⟩ | ⟨m, hm, _, hallle, hpre⟩
    · exact Or.inl ⟨hnone, hpre⟩
    · exact Or.inr ⟨m, hm, hallle, hpre⟩

/-- The source victim scan computes exactly the specification's victim rule. -/
lemma optVictimIdx_eq_spec (key : Page → Option Nat) (frames : List Page)
    (hne : frames ≠ []) :
    optVictimIdx key frames = specOptVictim key frames := by
  obtain ⟨hj, hchar⟩ := optVictimIdx_char key frames hne
  simp only [List.get_eq_getElem] at hchar
  unfold specOptVictim
  by_cases hany : frames.any (fun q => (key q).isNone)
  · rw [if_pos hany]
    rcases hchar with ⟨hnone, hpre⟩ | ⟨m, _, hallle, _⟩
    · symm
      rw [List.findIdx_eq hj]
      refine ⟨by simp [hnone], ?_⟩
      intro i hij
      have := hpre i (lt_trans hij hj) hij
      rcases Option.isSome_iff_exists.mp this with ⟨a, ha⟩
      simp [ha]
    · exfalso
      rcases List.any_eq_true.mp hany with ⟨q, hq, hqnone⟩
      rcases List.mem_iff_getElem.mp hq with ⟨i, hi, rfl⟩
      rcases hallle i hi with ⟨n, hn, _⟩
      rw [hn] at hqnone
      simp at hqnone
  · rw [if_neg hany]
    rcases hchar with ⟨hnone, _⟩ | ⟨m, hm, hallle, hpre⟩
    · exfalso
      apply hany
      refine List.any_eq_true.mpr
        ⟨frames.get ⟨optVictimIdx key frames, hj⟩, List.get_mem _ _ _, ?_⟩
      rw [List.get_eq_getElem]
      simp [hnone]
    · have hmax : (frames.map (fun r => ((key r).getD 0 : Nat))).maximum =
          WithBot.some m := by
        rw [List.maximum_eq_coe_iff]
        constructor
        · refine List.mem_map.mpr
            ⟨frames.get ⟨optVictimIdx key frames, hj⟩, List.get_mem _ _ _, ?_⟩
          rw [List.get_eq_getElem, hm]
          rfl
        · intro a ha
          rcases List.mem_map.mp ha with ⟨q, hq, rfl⟩
          rcases List.mem_iff_getElem.mp hq with ⟨i, hi, rfl⟩
          rcases hallle i hi with ⟨n, hn, hle⟩
          rw [hn]
          exact hle
      symm
      rw [List.findIdx_eq hj]
      constructor
      · rw [hm, hmax]
        simp
      · intro i hij
        rcases hpre i (lt_trans hij hj) hij with ⟨n, hn, hlt⟩
        rw [hn, hmax]
        simp only [Option.getD_some, decide_eq_false_iff_not]
        intro hcontra
        have : n = m := by
          simpa using hcontra
        omega

/-- C2: in `OptimalAlgorithm`, on every fault with no free frame the evicted
victim is chosen as the specification states: if some resident page has no
occurrence strictly after the current position, the victim is the one in
the lowest-indexed such frame; otherwise the victim is the resident page
whose next occurrence is furthest in the future, ties broken in favour of
the first-encountered frame index (only a strictly greater next use
replaces the current best). -/
theorem optStep_victim_eq_spec (trace : List Page) (F : Nat) (st : OptState)
    (i : Nat) (p : Page) (hp : p ∉ st.frames) (hfull : ¬ st.frames.length < F)
    (hne : st.frames ≠ []) :
    (optStep trace F st i p).frames =
      st.frames.set
        (specOptVictim (fun q => nextUseAfter (positionsOf trace q) i) st.frames) p ∧
    (optStep trace F st i p).evicts = st.evicts + 1 ∧
    (optStep trace F st i p).faults = st.faults + 1 := by
  rw [← optVictimIdx_eq_spec _ _ hne]
  simp [optStep, hp, hfull]

/-- Witness for `optStep_victim_eq_spec`: on trace `[A,B,C,A]` at position 2
(faulting on `C` with resident `[A,B]`, two frames), the victim is `B`
(never used again). -/
theorem optStep_victim_eq_spec_witness :
    (optStep ["A","B","C","A"] 2 ⟨["A","B"], 2, fun _ => 0, 0⟩ 2 "C").frames =
      ["A","B"].set
        (specOptVictim
          (fun q => nextUseAfter (positionsOf ["A","B","C","A"] q) 2) ["A","B"]) "C" ∧
    (optStep ["A","B","C","A"] 2 ⟨["A","B"], 2, fun _ => 0, 0⟩ 2 "C").evicts = 0 + 1 ∧
    (optStep ["A","B","C","A"] 2 ⟨["A","B"], 2, fun _ => 0, 0⟩ 2 "C").faults = 2 + 1 :=
  optStep_victim_eq_spec ["A","B","C","A"] 2 ⟨["A","B"], 2, fun _ => 0, 0⟩ 2 "C"
    (by decide) (by decide) (by decide)

/-- C8: with memory smaller than one 4096-byte page, `totalFrames` computes
to `0` and `Run` stops with the configuration error: no trace replay and no
fault computation of either policy is attempted. -/
theorem runSimulator_configError_of_lt_pageSize (memorySize : Nat)
    (trace : List Page) (skipOptimal : Bool) (h : memorySize < PAGE_SIZE) :
    totalFramesOf memorySize = 0 ∧
    runSimulator memorySize trace skipOptimal = RunOutcome.configError := by
  have h0 : totalFramesOf memorySize = 0 := Nat.div_eq_of_lt h
  exact ⟨h0, by simp [runSimulator, h0]⟩

/-- Witness for `runSimulator_configError_of_lt_pageSize` at 4095 bytes. -/
theorem runSimulator_configError_of_lt_pageSize_witness :
    totalFramesOf 4095 = 0 ∧
    runSimulator 4095 ["I0"] false = RunOutcome.configError :=
  runSimulator_configError_of_lt_pageSize 4095 ["I0"] false (by decide)

/-- C9: each policy run is a pure function of the trace and the frame
count: whatever value the shared `pageLoadCount` field holds on entry — in
particular the counter left behind by a previous run of the same policy —
the run returns the same fault count and leaves the same LoadCounter
contents, so repeated measurement is identical. -/
theorem policy_runs_deterministic (trace : List Page) (F : Nat)
    (loads0 loads1 : Page → Nat) :
    optimalAlgorithmS trace F loads0 = optimalAlgorithmS trace F loads1 ∧
    clockAlgorithmS trace F loads0 = clockAlgorithmS trace F loads1 ∧
    optimalAlgorithmS trace F (optimalAlgorithmS trace F loads0).2 =
      optimalAlgorithmS trace F loads0 ∧
    clockAlgorithmS trace F (clockAlgorithmS trace F loads0).2 =
      clockAlgorithmS trace F loads0 :=
  ⟨rfl, rfl, rfl, rfl⟩

/-- C7 counterexample: on trace `[A,B,C,A]` with two frames the OPT run
counts one load of `A`, but after `Run`'s subsequent Clock run the shared
`pageLoadCount` field — the value handed to reporting — holds `2` for `A`:
the Clock run replaced the OPT run's counts before they were reported. -/
theorem clock_run_replaces_opt_loadCounts :
    optLoads ["A","B","C","A"] 2 "A" = 1 ∧
    (runPolicies ["A","B","C","A"] 2 false (fun _ => 0)).pageLoadCount "A" = 2 := by
  exact ⟨by decide, by decide⟩

/-- C7 amended: the LoadCounter is reset at the start of every policy run,
so its counts are per-policy-run and never cumulative; but OPT and Clock
share the simulator's single `pageLoadCount` field, so a subsequent Clock
run replaces the counts the OPT run produced, and the reported counter is
the Clock run's. -/
theorem loadCounter_reset_and_shared (trace : List Page) (F : Nat)
    (loads0 loads1 : Page → Nat) :
    (optimalAlgorithmS trace F loads0).2 = optLoads trace F ∧
    (clockAlgorithmS trace F loads0).2 = clockLoads trace F ∧
    optimalAlgorithmS trace F loads0 = optimalAlgorithmS trace F loads1 ∧
    clockAlgorithmS trace F loads0 = clockAlgorithmS trace F loads1 ∧
    (runPolicies trace F false loads0).pageLoadCount = clockLoads trace F :=
  ⟨rfl, rfl, rfl, rfl, rfl⟩

/-- Setting a slot to the value it already holds leaves a list unchanged. -/
lemma set_of_get_eq {α : Type} : ∀ (l : List α) (i : Nat) (a : α),
    l.get? i = some a → l.set i a = l
  | [], _, _, h => by simp at h
  | _ :: _, 0, _, h => by
    simp at h
    simp [h]
  | b :: l, i + 1, a, h => by
    simp only [List.get?_cons_succ] at h
    simp [set_of_get_eq l i a h]

/-- The clock victim search only flips referenced bits while scanning: the
page content of every slot is unchanged, and the returned victim index is
in range and holds an unreferenced occupied frame. -/
lemma clockScan_spec (F : Nat) :
    ∀ (fuel : Nat) (frames : List (Option ClockFrame)) (ptr v : Nat)
      (frames' : List (Option ClockFrame)),
      clockScan F fuel frames ptr = some (v, frames') →
      pagesOf frames' = pagesOf frames ∧ v < frames.length ∧
      ∃ fr : ClockFrame, frames'.get? v = some (some fr) ∧ fr.referenced = false := by
  intro fuel
  induction fuel with
  | zero =>
    intro frames ptr v frames' h
    simp [clockScan] at h
  | succ n ih =>
    intro frames ptr v frames' h
    unfold clockScan at h
    cases hget : frames.get? ptr with
    | none => rw [hget] at h; simp at h
    | some o =>
      cases o with
      | none => rw [hget] at h; simp at h
      | some fr =>
        rw [hget] at h
        by_cases href : fr.referenced
        · simp only [href, if_true] at h
          obtain ⟨hpages, hv, hfrm⟩ := ih _ _ _ _ h
          have hlen := List.length_set frames ptr (some { fr with referenced := false })
          refine ⟨?_, by rw [← hlen]; exact hv, hfrm⟩
          rw [hpages]
          unfold pagesOf
          rw [List.map_set]
          apply set_of_get_eq
          rw [List.get?_eq_getElem?]
          rw [List.getElem?_map]
          rcases List.get?_eq_some.mp hget with ⟨hi, hval⟩
          rw [List.get_eq_getElem] at hval
          rw [List.getElem?_eq_getElem hi, hval]
          rfl
        · simp only [href, if_false] at h
          rcases h with ⟨rfl, rfl⟩
          rcases List.get?_eq_some.mp hget with ⟨hi, _⟩
          exact ⟨rfl, hi, fr, by rw [hget, Bool.eq_false_iff.mpr href]; exact ⟨rfl, rfl⟩⟩

/-- When every frame is occupied, the victim search succeeds before running
out of fuel: each unsuccessful visit clears one referenced bit, so any fuel
exceeding the number of referenced frames suffices. -/
lemma clockScan_isSome_of_full (F : Nat) :
    ∀ (fuel : Nat) (frames : List (Option ClockFrame)) (ptr : Nat),
      frames.length = F → (∀ o ∈ frames, o.isSome) → ptr < F →
      countRef frames < fuel → (clockScan F fuel frames ptr).isSome := by
  intro fuel
  induction fuel with
  | zero =>
    intro frames ptr _ _ _ hcount
    omega
  | succ n ih =>
    intro frames ptr hlen hfull hptr hcount
    have hptr' : ptr < frames.length := hlen ▸ hptr
    obtain ⟨fr, hfr⟩ := Option.isSome_iff_exists.mp (hfull _ (List.getElem_mem hptr'))
    unfold clockScan
    rw [List.get?_eq_getElem?, List.getElem?_eq_getElem hptr', hfr]
    by_cases href : fr.referenced
    · simp only [href, if_true]
      have hcnt1 : 0 < countRef frames := by
        unfold countRef
        rw [List.countP_pos_iff]
        exact ⟨frames[ptr], List.getElem_mem hptr', by rw [hfr]; simpa using href⟩
      have hcnt2 : countRef (frames.set ptr (some { fr with referenced := false })) =
          countRef frames - 1 := by
        unfold countRef
        rw [List.countP_set _ _ _ _ hptr']
        rw [hfr]
        simp [href]
      apply ih
      · rw [List.length_set]; exact hlen
      · intro o ho
        rcases List.mem_or_eq_of_mem_set ho with hmem | rfl
        · exact hfull o hmem
        · rfl
      · exact Nat.mod_lt _ (by omega)
      · omega
    · simp [href]

/-- C6: every victim-selection scan of `ClockAlgorithm` — entered only when
no frame is empty — terminates, finding an unreferenced frame within at
most `2 * totalFrames` visited frames (the fuel the embedding gives it). -/
theorem clockScan_within_two_passes (F : Nat) (frames : List (Option ClockFrame))
    (ptr : Nat) (hlen : frames.length = F) (hfull : ∀ o ∈ frames, o.isSome)
    (hptr : ptr < F) :
    (clockScan F (2 * F) frames ptr).isSome := by
  apply clockScan_isSome_of_full F _ _ _ hlen hfull hptr
  have h1 : countRef frames ≤ F := by
    have := List.countP_le_length (l := frames) (fun o => match o with
      | some fr => fr.referenced
      | none => false)
    unfold countRef
    omega
  omega

/-- Witness for `clockScan_within_two_passes` on two fully referenced
frames. -/
theorem clockScan_within_two_passes_witness :
    (clockScan 2 (2 * 2)
      [some ⟨"A", true, 1⟩, some ⟨"B", true, 1⟩] 0).isSome :=
  clockScan_within_two_passes 2 [some ⟨"A", true, 1⟩, some ⟨"B", true, 1⟩] 0
    (by decide) (by decide) (by decide)

/-- A failed `pageToFrame` lookup means the page is resident nowhere. -/
lemma lookupFrame_eq_none_iff (frames : List (Option ClockFrame)) (p : Page) :
    lookupFrame frames p = none ↔ p ∉ framePages frames := by
  unfold lookupFrame framePages
  rw [List.findIdx?_eq_none_iff]
  constructor
  · intro h hmem
    rcases List.mem_filterMap.mp hmem with ⟨o, ho, heq⟩
    have hpred := h o ho
    cases o with
    | none => simp at heq
    | some fr =>
      simp only [Option.map_some'] at heq
      simp only [decide_eq_false_iff_not] at hpred
      exact hpred (by injection heq)
  · intro h o ho
    cases o with
    | none => rfl
    | some fr =>
      simp only [decide_eq_false_iff_not]
      intro hpe
      exact h (List.mem_filterMap.mpr ⟨some fr, ho, by simp [hpe]⟩)

/-- The element found by `findIdx?` satisfies the predicate. -/
lemma findIdx?_some_spec {α : Type} (P : α → Bool) (l : List α) (k : Nat)
    (h : l.findIdx? P = some k) : ∃ a, l.get? k = some a ∧ P a = true := by
  rw [List.findIdx?_eq_some_iff_findIdx_eq] at h
  obtain ⟨hk, hidx⟩ := h
  have hp := ((List.findIdx_eq hk).mp hidx).1
  exact ⟨l[k], by rw [List.get?_eq_getElem?, List.getElem?_eq_getElem hk], hp⟩

/-- Elements before the index found by `findIdx?` fail the predicate. -/
lemma findIdx?_some_min {α : Type} (P : α → Bool) (l : List α) (k : Nat)
    (h : l.findIdx? P = some k) :
    ∀ j, j < k → ∀ a, l.get? j = some a → P a = false := by
  rw [List.findIdx?_eq_some_iff_findIdx_eq] at h
  obtain ⟨hk, hidx⟩ := h
  intro j hj a ha
  have hpj := ((List.findIdx_eq hk).mp hidx).2 j hj
  rcases List.get?_eq_some.mp ha with ⟨hjl, hval⟩
  rw [List.get_eq_getElem] at hval
  rw [hval] at hpj
  exact hpj

/-- A successful lookup returns a frame slot holding the page. -/
lemma lookupFrame_eq_some (frames : List (Option ClockFrame)) (p : Page) (k : Nat)
    (h : lookupFrame frames p = some k) :
    ∃ fr : ClockFrame, frames.get? k = some (some fr) ∧ fr.pageID = p := by
  unfold lookupFrame at h
  obtain ⟨o, ho, hpred⟩ := findIdx?_some_spec _ frames k h
  cases o with
  | none => simp at hpred
  | some fr =>
    simp only [decide_eq_true_eq] at hpred
    exact ⟨fr, ho, hpred⟩

/-- `clockStep` either hits — leaving every counter, the hand, and the page
placement unchanged — or faults, bumping the fault count and the faulted
page's load count by one. -/
lemma clockStep_cases (F : Nat) (st : ClockState) (p : Page) (st' : ClockState)
    (h : clockStep F st p = some st') :
    (st'.faults = st.faults ∧ st'.loads = st.loads ∧ st'.evicts = st.evicts ∧
      st'.pointer = st.pointer ∧ pagesOf st'.frames = pagesOf st.frames) ∨
    (st'.faults = st.faults + 1 ∧ st'.loads = bumpLoad st.loads p) := by
  unfold clockStep at h
  cases hlk : lookupFrame st.frames p with
  | some k =>
    simp only [hlk] at h
    cases hget : st.frames.get? k with
    | none => simp only [hget] at h; exact Option.noConfusion h
    | some o =>
      cases o with
      | none => simp only [hget] at h; exact Option.noConfusion h
      | some fr =>
        simp only [hget] at h
        left
        obtain rfl : { st with frames := st.frames.set k (some { fr with referenced := true }) } = st' := by
          injection h
        refine ⟨rfl, rfl, rfl, rfl, ?_⟩
        unfold pagesOf
        rw [List.map_set]
        apply set_of_get_eq
        rw [List.get?_eq_getElem?, List.getElem?_map]
        rcases List.get?_eq_some.mp hget with ⟨hi, hval⟩
        rw [List.get_eq_getElem] at hval
        rw [List.getElem?_eq_getElem hi, hval]
        rfl
  | none =>
    simp only [hlk] at h
    cases hfind : st.frames.findIdx? (fun o => o.isNone) with
    | some e =>
      simp only [hfind] at h
      right
      obtain rfl : _ = st' := by injection h
      exact ⟨rfl, rfl⟩
    | none =>
      simp only [hfind] at h
      cases hscan : clockScan F (2 * F) st.frames st.pointer with
      | none => simp only [hscan] at h; exact Option.noConfusion h
      | some vf =>
        simp only [hscan] at h
        right
        obtain rfl : _ = st' := by injection h
        exact ⟨rfl, rfl⟩

/-- On any access, a well-formed clock state steps successfully. -/
lemma clockStep_isSome (F : Nat) (st : ClockState) (p : Page)
    (hlen : st.frames.length = F) (hptr : st.pointer < F) :
    (clockStep F st p).isSome := by
  cases hlk : lookupFrame st.frames p with
  | some k =>
    obtain ⟨fr, hget, _⟩ := lookupFrame_eq_some st.frames p k hlk
    simp only [clockStep, hlk, hget, Option.isSome_some]
  | none =>
    cases hfind : st.frames.findIdx? (fun o => o.isNone) with
    | some e => simp only [clockStep, hlk, hfind, Option.isSome_some]
    | none =>
      have hfull : ∀ o ∈ st.frames, o.isSome := by
        intro o ho
        have := List.findIdx?_eq_none_iff.mp hfind o ho
        cases o with
        | none => simp at this
        | some fr => rfl
      have hsome := clockScan_isSome_of_full F (2 * F) st.frames st.pointer hlen hfull hptr
        (by
          have h1 : countRef st.frames ≤ F := by
            have := List.countP_le_length (l := st.frames) (fun o => match o with
              | some fr => fr.referenced
              | none => false)
            unfold countRef
            omega
          omega)
      cases hscan : clockScan F (2 * F) st.frames st.pointer with
      | none => rw [hscan] at hsome; simp at hsome
      | some vf =>
        obtain ⟨v, frames'⟩ := vf
        simp only [clockStep, hlk, hfind, hscan, Option.isSome_some]

/-- `clockStep` keeps the frame count and the hand bound intact. -/
lemma clockStep_shape (F : Nat) (st : ClockState) (p : Page) (st' : ClockState)
    (hlen : st.frames.length = F) (hptr : st.pointer < F)
    (h : clockStep F st p = some st') :
    st'.frames.length = F ∧ st'.pointer < F := by
  unfold clockStep at h
  cases hlk : lookupFrame st.frames p with
  | some k =>
    simp only [hlk] at h
    cases hget : st.frames.get? k with
    | none => simp only [hget] at h; exact Option.noConfusion h
    | some o =>
      cases o with
      | none => simp only [hget] at h; exact Option.noConfusion h
      | some fr =>
        simp only [hget] at h
        obtain rfl : _ = st' := by injection h
        exact ⟨by simp [List.length_set, hlen], hptr⟩
  | none =>
    simp only [hlk] at h
    cases hfind : st.frames.findIdx? (fun o => o.isNone) with
    | some e =>
      simp only [hfind] at h
      obtain rfl : _ = st' := by injection h
      exact ⟨by simp [List.length_set, hlen], hptr⟩
    | none =>
      simp only [hfind] at h
      cases hscan : clockScan F (2 * F) st.frames st.pointer with
      | none => simp only [hscan] at h; exact Option.noConfusion h
      | some vf =>
        obtain ⟨v, frames'⟩ := vf
        simp only [hscan] at h
        obtain rfl : _ = st' := by injection h
        obtain ⟨hpages, _, _⟩ := clockScan_spec F (2 * F) st.frames st.pointer v frames' hscan
        have hlen' : frames'.length = st.frames.length := by
          have := congrArg List.length hpages
          unfold pagesOf at this
          simpa using this
        constructor
        · simp only [List.length_set]
          rw [hlen', hlen]
        · exact Nat.mod_lt _ (by omega)

/-- On any access, a clock state satisfying the structural frame and hand
bounds steps successfully to a state satisfying them again. -/
lemma clockStep_total (F : Nat) (st : ClockState) (p : Page)
    (hlen : st.frames.length = F) (hptr : st.pointer < F) :
    ∃ st', clockStep F st p = some st' ∧ st'.frames.length = F ∧ st'.pointer < F := by
  obtain ⟨st', hst'⟩ := Option.isSome_iff_exists.mp (clockStep_isSome F st p hlen hptr)
  exact ⟨st', hst', clockStep_shape F st p st' hlen hptr hst'⟩

/-- The whole clock replay succeeds from any well-formed state. -/
lemma clockRun_total (F : Nat) : ∀ (acc : List Page) (st : ClockState),
    st.frames.length = F → st.pointer < F →
    ∃ st', clockRun F acc st = some st' ∧ st'.frames.length = F ∧ st'.pointer < F := by
  intro acc
  induction acc with
  | nil => intro st hlen hptr; exact ⟨st, rfl, hlen, hptr⟩
  | cons p rest ih =>
    intro st hlen hptr
    obtain ⟨st1, hstep, hlen1, hptr1⟩ := clockStep_total F st p hlen hptr
    obtain ⟨st', hrun, hlen', hptr'⟩ := ih st1 hlen1 hptr1
    exact ⟨st', by unfold clockRun; rw [hstep]; exact hrun, hlen', hptr'⟩

/-- `ClockAlgorithm` always completes when at least one frame exists. -/
lemma clockAlgorithm_total (trace : List Page) (F : Nat) (hF : 1 ≤ F) :
    ∃ st, clockAlgorithm trace F = some st :=
  match clockRun_total F trace (clockInit F) (by simp [clockInit]) (by simpa [clockInit] using hF) with
  | ⟨st, h, _, _⟩ => ⟨st, h⟩

/-- Bumping one member's counter raises the counters' sum by one. -/
lemma sum_bumpLoad (D : Finset Page) (L : Page → Nat) (p : Page) (hp : p ∈ D) :
    ∑ q ∈ D, bumpLoad L p q = (∑ q ∈ D, L q) + 1 := by
  have hfun : ∀ q, bumpLoad L p q = L q + (if q = p then 1 else 0) := by
    intro q
    unfold bumpLoad
    by_cases h : q = p <;> simp [h]
  calc ∑ q ∈ D, bumpLoad L p q = ∑ q ∈ D, (L q + if q = p then 1 else 0) := by
        exact Finset.sum_congr rfl (fun q _ => hfun q)
    _ = (∑ q ∈ D, L q) + ∑ q ∈ D, (if q = p then (fun _ => 1) q else 0) :=
        Finset.sum_add_distrib
    _ = (∑ q ∈ D, L q) + 1 := by
        rw [Finset.sum_ite_eq' D p (fun _ => 1), if_pos hp]

/-- Along the OPT replay, the fault counter stays equal to the total of the
per-page load counters. -/
lemma optLoop_faults_sum (trace : List Page) (F : Nat) (D : Finset Page) :
    ∀ (acc : List (Nat × Page)) (st : OptState),
      (∀ ip ∈ acc, ip.2 ∈ D) →
      st.faults = ∑ q ∈ D, st.loads q →
      (optLoop trace F acc st).faults = ∑ q ∈ D, (optLoop trace F acc st).loads q := by
  intro acc
  induction acc with
  | nil => intro st _ h; exact h
  | cons ip rest ih =>
    intro st hmem hst
    obtain ⟨i, p⟩ := ip
    simp only [optLoop]
    apply ih _ (fun x hx => hmem x (List.mem_cons_of_mem _ hx))
    have hpD : p ∈ D := hmem (i, p) (List.mem_cons_self _ _)
    unfold optStep
    by_cases hp : p ∈ st.frames
    · simp [hp, hst]
    · by_cases hlen : st.frames.length < F <;>
        simp [hp, hlen, hst, sum_bumpLoad D st.loads p hpD]

/-- Along the clock replay, the fault counter stays equal to the total of
the per-page load counters. -/
lemma clockRun_faults_sum (F : Nat) (D : Finset Page) :
    ∀ (acc : List Page) (st st' : ClockState),
      clockRun F acc st = some st' →
      (∀ p ∈ acc, p ∈ D) →
      st.faults = ∑ q ∈ D, st.loads q →
      st'.faults = ∑ q ∈ D, st'.loads q := by
  intro acc
  induction acc with
  | nil =>
    intro st st' h _ hst
    obtain rfl : st = st' := by
      unfold clockRun at h
      injection h
    exact hst
  | cons p rest ih =>
    intro st st' h hmem hst
    unfold clockRun at h
    cases hstep : clockStep F st p with
    | none => rw [hstep] at h; simp at h
    | some st1 =>
      rw [hstep] at h
      apply ih st1 st' h (fun x hx => hmem x (List.mem_cons_of_mem _ hx))
      rcases clockStep_cases F st p st1 hstep with ⟨hf, hl, _, _, _⟩ | ⟨hf, hl⟩
      · rw [hf, hl]; exact hst
      · rw [hf, hl, sum_bumpLoad D st.loads p (hmem p (List.mem_cons_self _ _)), hst]

/-- C10: for every trace and `F ≥ 1`, each policy's fault count equals the
sum of its run's LoadCounter over the distinct pages of the trace — every
fault increments exactly one page's counter by one, hits increment
nothing. -/
theorem faults_eq_sum_loads (trace : List Page) (F : Nat) (hF : 1 ≤ F) :
    optFaults trace F = ∑ q ∈ trace.toFinset, optLoads trace F q ∧
    clockFaults trace F = ∑ q ∈ trace.toFinset, clockLoads trace F q := by
  constructor
  · unfold optFaults optLoads optimalAlgorithm
    apply optLoop_faults_sum
    · intro ip hip
      exact List.mem_toFinset.mpr (List.snd_mem_of_mem_enumFrom hip)
    · simp [optInit]
  · obtain ⟨st, hst⟩ := clockAlgorithm_total trace F hF
    unfold clockFaults clockLoads
    rw [hst]
    simp only [Option.map_some', Option.getD_some]
    exact clockRun_faults_sum F trace.toFinset trace (clockInit F) st hst
      (fun p hp => List.mem_toFinset.mpr hp) (by simp [clockInit])

/-- Witness for `faults_eq_sum_loads` on `[A,B,A]` with one frame. -/
theorem faults_eq_sum_loads_witness :
    optFaults ["A","B","A"] 1 = ∑ q ∈ (["A","B","A"] : List Page).toFinset, optLoads ["A","B","A"] 1 q ∧
    clockFaults ["A","B","A"] 1 = ∑ q ∈ (["A","B","A"] : List Page).toFinset, clockLoads ["A","B","A"] 1 q :=
  faults_eq_sum_loads ["A","B","A"] 1 (by decide)

/-- The resident-page list is determined by the slotwise page content. -/
lemma framePages_eq_filterMap (frames : List (Option ClockFrame)) :
    framePages frames = (pagesOf frames).filterMap id := by
  unfold framePages pagesOf
  rw [List.filterMap_map]
  rfl

/-- Equal page content yields equal resident-page lists. -/
lemma framePages_congr {f1 f2 : List (Option ClockFrame)}
    (h : pagesOf f1 = pagesOf f2) : framePages f1 = framePages f2 := by
  rw [framePages_eq_filterMap, framePages_eq_filterMap, h]

/-- The number of resident pages is the number of occupied slots. -/
lemma framePages_length (frames : List (Option ClockFrame)) :
    (framePages frames).length = frames.countP (fun o => o.isSome) := by
  induction frames with
  | nil => rfl
  | cons o t ih => cases o <;> simp [framePages, List.countP_cons, framePages_eq_filterMap] at ih ⊢ <;> omega

/-- Installing a page into an empty slot adds exactly that page to the
resident list (up to position). -/
lemma framePages_set_none : ∀ (frames : List (Option ClockFrame)) (e : Nat)
    (fr : ClockFrame), frames.get? e = some none →
    (framePages (frames.set e (some fr))).Perm (fr.pageID :: framePages frames) := by
  intro frames
  induction frames with
  | nil => intro e fr h; simp at h
  | cons o t ih =>
    intro e fr h
    cases e with
    | zero =>
      obtain rfl : o = none := by simpa using h
      simp [framePages]
    | succ e =>
      simp only [List.get?_cons_succ] at h
      have hperm := ih e fr h
      cases o with
      | none => simpa [framePages] using hperm
      | some g =>
        simp only [List.set_cons_succ]
        have : framePages (some g :: t.set e (some fr)) =
            g.pageID :: framePages (t.set e (some fr)) := rfl
        rw [this]
        have : framePages (some g :: t) = g.pageID :: framePages t := rfl
        rw [this]
        exact (hperm.cons g.pageID).trans (List.Perm.swap _ _ _)

/-- A list element fetched by `get?` is a member. -/
lemma mem_of_get?_eq_some {α : Type} {l : List α} {n : Nat} {a : α}
    (h : l.get? n = some a) : a ∈ l := by
  rcases List.get?_eq_some.mp h with ⟨hn, hval⟩
  rw [← hval]
  exact List.get_mem l n hn

/-- With enough frames to hold every page still to come, the OPT replay
never evicts: the frames collect exactly the pages seen, each faults once,
and eviction never happens. -/
lemma optLoop_small (trace : List Page) (F : Nat) :
    ∀ (acc : List (Nat × Page)) (st : OptState),
      st.frames.Nodup →
      st.faults = st.frames.toFinset.card →
      (∀ q, st.loads q = if q ∈ st.frames.toFinset then 1 else 0) →
      st.evicts = 0 →
      (st.frames.toFinset ∪ (acc.map Prod.snd).toFinset).card ≤ F →
      (optLoop trace F acc st).frames.toFinset =
          st.frames.toFinset ∪ (acc.map Prod.snd).toFinset ∧
      (optLoop trace F acc st).frames.Nodup ∧
      (optLoop trace F acc st).faults =
          (st.frames.toFinset ∪ (acc.map Prod.snd).toFinset).card ∧
      (∀ q, (optLoop trace F acc st).loads q =
          if q ∈ st.frames.toFinset ∪ (acc.map Prod.snd).toFinset then 1 else 0) ∧
      (optLoop trace F acc st).evicts = 0 := by
  intro acc
  induction acc with
  | nil =>
    intro st h1 h2 h3 h4 _
    simp only [optLoop, List.map_nil, List.toFinset_nil, Finset.union_empty]
    exact ⟨trivial, h1, h2, h3, h4⟩
  | cons ip rest ih =>
    intro st h1 h2 h3 h4 hcap
    obtain ⟨i, p⟩ := ip
    have hmapcons : (((i, p) :: rest).map Prod.snd).toFinset =
        insert p (rest.map Prod.snd).toFinset := by simp
    by_cases hp : p ∈ st.frames
    · have hpS : p ∈ st.frames.toFinset := List.mem_toFinset.mpr hp
      have hset : st.frames.toFinset ∪ (((i, p) :: rest).map Prod.snd).toFinset =
          st.frames.toFinset ∪ (rest.map Prod.snd).toFinset := by
        rw [hmapcons, Finset.union_insert,
          Finset.insert_eq_self.mpr (Finset.mem_union_left _ hpS)]
      rw [hset] at hcap ⊢
      have hstep : optStep trace F st i p = st := by simp [optStep, hp]
      simp only [optLoop, hstep]
      exact ih st h1 h2 h3 h4 hcap
    · have hpS : p ∉ st.frames.toFinset := fun hc => hp (List.mem_toFinset.mp hc)
      have hsub : insert p st.frames.toFinset ⊆
          st.frames.toFinset ∪ (((i, p) :: rest).map Prod.snd).toFinset := by
        intro x hx
        rcases Finset.mem_insert.mp hx with rfl | hxS
        · rw [hmapcons]
          exact Finset.mem_union_right _ (Finset.mem_insert_self _ _)
        · exact Finset.mem_union_left _ hxS
      have hlt : st.frames.length < F := by
        have hc1 : (insert p st.frames.toFinset).card = st.frames.toFinset.card + 1 :=
          Finset.card_insert_of_not_mem hpS
        have hc2 := Finset.card_le_card hsub
        have hc3 := List.toFinset_card_of_nodup h1
        omega
      have hstep : optStep trace F st i p =
          { st with frames := st.frames ++ [p], faults := st.faults + 1,
                    loads := bumpLoad st.loads p } := by
        simp [optStep, hp, hlt]
      have hset : st.frames.toFinset ∪ (((i, p) :: rest).map Prod.snd).toFinset =
          (st.frames ++ [p]).toFinset ∪ (rest.map Prod.snd).toFinset := by
        ext x
        simp
        tauto
      rw [hset] at hcap ⊢
      simp only [optLoop, hstep]
      apply ih
      · rw [List.nodup_append]
        exact ⟨h1, List.nodup_singleton p, by simpa using hp⟩
      · rw [List.toFinset_append]
        simp only [List.toFinset_cons, List.toFinset_nil]
        rw [show st.frames.toFinset ∪ insert p ∅ = insert p st.frames.toFinset by
          rw [Finset.union_insert, Finset.union_empty]]
        rw [Finset.card_insert_of_not_mem hpS, h2]
      · intro q
        rw [List.toFinset_append]
        simp only [List.toFinset_cons, List.toFinset_nil]
        rw [show st.frames.toFinset ∪ insert p ∅ = insert p st.frames.toFinset by
          rw [Finset.union_insert, Finset.union_empty]]
        unfold bumpLoad
        by_cases hq : q = p
        · subst hq
          rw [h3 q, if_neg hpS, if_pos rfl, if_pos (Finset.mem_insert_self _ _)]
        · rw [if_neg hq, h3 q]
          by_cases hqS : q ∈ st.frames.toFinset
          · rw [if_pos hqS, if_pos (Finset.mem_insert_of_mem hqS)]
          · rw [if_neg hqS, if_neg (fun hc => by
              rcases Finset.mem_insert.mp hc with h | h
              · exact hq h
              · exact hqS h)]
      · exact h4
      · exact hcap

/-- With enough frames to hold every page still to come, the clock replay
never enters the victim scan: pages fill empty frames, each faults once,
the hand never moves, and eviction never happens. -/
lemma clockRun_small (F : Nat) :
    ∀ (acc : List Page) (st : ClockState),
      st.frames.length = F →
      st.pointer < F →
      (framePages st.frames).Nodup →
      st.faults = (framePages st.frames).toFinset.card →
      (∀ q, st.loads q = if q ∈ (framePages st.frames).toFinset then 1 else 0) →
      st.evicts = 0 →
      ((framePages st.frames).toFinset ∪ acc.toFinset).card ≤ F →
      ∃ st', clockRun F acc st = some st' ∧
        (framePages st'.frames).toFinset =
          (framePages st.frames).toFinset ∪ acc.toFinset ∧
        st'.faults = ((framePages st.frames).toFinset ∪ acc.toFinset).card ∧
        (∀ q, st'.loads q =
          if q ∈ (framePages st.frames).toFinset ∪ acc.toFinset then 1 else 0) ∧
        st'.evicts = 0 := by
  intro acc
  induction acc with
  | nil =>
    intro st _ _ _ h4 h5 h6 _
    refine ⟨st, rfl, ?_, ?_, ?_, h6⟩ <;>
      simp only [List.toFinset_nil, Finset.union_empty]
    · exact h4
    · exact h5
  | cons p rest ih =>
    intro st h1 h2 h3 h4 h5 h6 hcap
    have hmapcons : (p :: rest).toFinset = insert p rest.toFinset := by simp
    cases hlk : lookupFrame st.frames p with
    | some k =>
      obtain ⟨fr, hget, hfrp⟩ := lookupFrame_eq_some st.frames p k hlk
      have hstep : clockStep F st p =
          some { st with frames := st.frames.set k (some { fr with referenced := true }) } := by
        simp only [clockStep, hlk, hget]
      have hpages : pagesOf (st.frames.set k (some { fr with referenced := true })) =
          pagesOf st.frames := by
        unfold pagesOf
        rw [List.map_set]
        apply set_of_get_eq
        rw [List.get?_eq_getElem?, List.getElem?_map]
        rcases List.get?_eq_some.mp hget with ⟨hi, hval⟩
        rw [List.get_eq_getElem] at hval
        rw [List.getElem?_eq_getElem hi, hval]
        rfl
      have hfp : framePages (st.frames.set k (some { fr with referenced := true })) =
          framePages st.frames := framePages_congr hpages
      have hpmem : p ∈ (framePages st.frames).toFinset := by
        rw [List.mem_toFinset, ← hfrp]
        exact List.mem_filterMap.mpr ⟨some fr, mem_of_get?_eq_some hget, rfl⟩
      have hset : (framePages st.frames).toFinset ∪ (p :: rest).toFinset =
          (framePages st.frames).toFinset ∪ rest.toFinset := by
        rw [hmapcons, Finset.union_insert,
          Finset.insert_eq_self.mpr (Finset.mem_union_left _ hpmem)]
      rw [hset] at hcap ⊢
      obtain ⟨st', hrun, hc1, hc2, hc3, hc4⟩ := ih
        { st with frames := st.frames.set k (some { fr with referenced := true }) }
        (by simpa using h1) h2 (by rw [hfp]; exact h3)
        (by rw [hfp]; exact h4) (by rw [hfp]; exact h5) h6 (by rw [hfp]; exact hcap)
      rw [hfp] at hc1 hc2 hc3
      exact ⟨st', by unfold clockRun; rw [hstep]; exact hrun, hc1, hc2, hc3, hc4⟩
    | none =>
      have hpnot : p ∉ framePages st.frames := (lookupFrame_eq_none_iff _ _).mp hlk
      have hpS : p ∉ (framePages st.frames).toFinset :=
        fun hc => hpnot (List.mem_toFinset.mp hc)
      have hsub : insert p (framePages st.frames).toFinset ⊆
          (framePages st.frames).toFinset ∪ (p :: rest).toFinset := by
        intro x hx
        rcases Finset.mem_insert.mp hx with rfl | hxS
        · rw [hmapcons]
          exact Finset.mem_union_right _ (Finset.mem_insert_self _ _)
        · exact Finset.mem_union_left _ hxS
      have hcardlt : (framePages st.frames).length < F := by
        have hc1 : (insert p (framePages st.frames).toFinset).card =
            (framePages st.frames).toFinset.card + 1 :=
          Finset.card_insert_of_not_mem hpS
        have hc2 := Finset.card_le_card hsub
        have hc3 := List.toFinset_card_of_nodup h3
        omega
      have hnone : ∃ o ∈ st.frames, o.isNone := by
        by_contra hall
        push_neg at hall
        have : st.frames.countP (fun o => o.isSome) = st.frames.length := by
          rw [List.countP_eq_length]
          intro o ho
          have := hall o ho
          cases o with
          | none => simp at this
          | some fr => rfl
        rw [framePages_length] at hcardlt
        omega
      cases hfind : st.frames.findIdx? (fun o => o.isNone) with
      | none =>
        exfalso
        obtain ⟨o, ho, hno⟩ := hnone
        have := List.findIdx?_eq_none_iff.mp hfind o ho
        rw [this] at hno
        simp at hno
      | some e =>
        obtain ⟨a, hae, haN⟩ := findIdx?_some_spec _ st.frames e hfind
        obtain rfl : a = none := by
          cases a with
          | none => rfl
          | some fr => simp at haN
        have hstep : clockStep F st p = some { st with
            frames := st.frames.set e (some ⟨p, true, 1⟩),
            faults := st.faults + 1, loads := bumpLoad st.loads p } := by
          simp only [clockStep, hlk, hfind]
        have hperm := framePages_set_none st.frames e ⟨p, true, 1⟩ hae
        have hnodup' : (framePages (st.frames.set e (some ⟨p, true, 1⟩))).Nodup := by
          rw [hperm.nodup_iff]
          exact List.Nodup.cons hpnot h3
        have hfinset' : (framePages (st.frames.set e (some ⟨p, true, 1⟩))).toFinset =
            insert p (framePages st.frames).toFinset := by
          ext x
          simp [hperm.mem_iff]
        have hset : (framePages st.frames).toFinset ∪ (p :: rest).toFinset =
            insert p (framePages st.frames).toFinset ∪ rest.toFinset := by
          ext x
          simp
        rw [hset] at hcap ⊢
        obtain ⟨st', hrun, hc1, hc2, hc3, hc4⟩ := ih
          { st with frames := st.frames.set e (some ⟨p, true, 1⟩),
                    faults := st.faults + 1, loads := bumpLoad st.loads p }
          (by simpa using h1) h2 hnodup'
          (by
            show st.faults + 1 = _
            rw [hfinset', Finset.card_insert_of_not_mem hpS, h4])
          (by
            intro q
            show bumpLoad st.loads p q = _
            rw [hfinset']
            unfold bumpLoad
            by_cases hq : q = p
            · subst hq
              rw [h5 q, if_neg hpS, if_pos rfl, if_pos (Finset.mem_insert_self _ _)]
            · rw [if_neg hq, h5 q]
              by_cases hqS : q ∈ (framePages st.frames).toFinset
              · rw [if_pos hqS, if_pos (Finset.mem_insert_of_mem hqS)]
              · rw [if_neg hqS, if_neg (fun hc => by
                  rcases Finset.mem_insert.mp hc with h | h
                  · exact hq h
                  · exact hqS h)])
          h6 (by rw [hfinset']; exact hcap)
        rw [hfinset'] at hc1 hc2 hc3
        exact ⟨st', by unfold clockRun; rw [hstep]; exact hrun, hc1, hc2, hc3, hc4⟩

/-- The initial clock frame array holds no pages. -/
lemma framePages_replicate_none (F : Nat) :
    framePages (List.replicate F (none : Option ClockFrame)) = [] := by
  induction F with
  | zero => rfl
  | succ n ih =>
    rw [List.replicate_succ]
    show framePages (List.replicate n none) = []
    exact ih

/-- C5: with frame capacity at least the number of distinct pages of a
non-empty trace, `OptimalAlgorithm` and `ClockAlgorithm` each return a
fault count exactly equal to the number of distinct pages, every accessed
page's LoadCounter entry is exactly 1, and no eviction ever occurs. -/
theorem full_capacity_no_eviction (trace : List Page) (F : Nat)
    (htr : trace ≠ []) (hF : distinctCount trace ≤ F) :
    optFaults trace F = distinctCount trace ∧
    clockFaults trace F = distinctCount trace ∧
    (∀ p ∈ trace, optLoads trace F p = 1) ∧
    (∀ p ∈ trace, clockLoads trace F p = 1) ∧
    optEvicts trace F = 0 ∧ clockEvicts trace F = 0 := by
  have hFpos : 1 ≤ F := by
    rcases List.exists_mem_of_ne_nil trace htr with ⟨p, hp⟩
    have hpos : 0 < trace.toFinset.card :=
      Finset.card_pos.mpr ⟨p, List.mem_toFinset.mpr hp⟩
    unfold distinctCount at hF
    omega
  have hopt := optLoop_small trace F (List.enumFrom 0 trace) optInit
    (by simp [optInit]) (by simp [optInit]) (by intro q; simp [optInit])
    (by simp [optInit])
    (by simpa [optInit, List.enumFrom_map_snd] using hF)
  simp only [optInit, List.toFinset_nil, Finset.empty_union,
    List.enumFrom_map_snd] at hopt
  obtain ⟨_, _, hofaults, holoads, hoevicts⟩ := hopt
  have hclock := clockRun_small F trace (clockInit F)
    (by simp [clockInit]) (by simpa [clockInit] using hFpos)
    (by simp [clockInit, framePages_replicate_none])
    (by simp [clockInit, framePages_replicate_none])
    (by intro q; simp [clockInit, framePages_replicate_none])
    (by simp [clockInit])
    (by simpa [clockInit, framePages_replicate_none] using hF)
  simp only [clockInit, framePages_replicate_none, List.toFinset_nil,
    Finset.empty_union] at hclock
  obtain ⟨st', hrun, _, hcfaults, hcloads, hcevicts⟩ := hclock
  have halg : clockAlgorithm trace F = some st' := hrun
  refine ⟨?_, ?_, ?_, ?_, ?_, ?_⟩
  · exact hofaults
  · unfold clockFaults
    rw [halg]
    exact hcfaults
  · intro p hp
    have hl := holoads p
    rw [if_pos (List.mem_toFinset.mpr hp)] at hl
    exact hl
  · intro p hp
    unfold clockLoads
    rw [halg]
    simp only [Option.map_some', Option.getD_some]
    rw [hcloads p, if_pos (List.mem_toFinset.mpr hp)]
  · exact hoevicts
  · unfold clockEvicts
    rw [halg]
    exact hcevicts

/-- Witness for `full_capacity_no_eviction` on `[A,B]` with two frames. -/
theorem full_capacity_no_eviction_witness :
    optFaults ["A","B"] 2 = distinctCount ["A","B"] ∧
    clockFaults ["A","B"] 2 = distinctCount ["A","B"] ∧
    (∀ p ∈ (["A","B"] : List Page), optLoads ["A","B"] 2 p = 1) ∧
    (∀ p ∈ (["A","B"] : List Page), clockLoads ["A","B"] 2 p = 1) ∧
    optEvicts ["A","B"] 2 = 0 ∧ clockEvicts ["A","B"] 2 = 0 :=
  full_capacity_no_eviction ["A","B"] 2 (by decide) (by decide)

/-- C4 counterexample: on the classic FIFO-anomaly trace
`[1,2,3,4,1,2,5,1,2,3,4,5]` the clock policy faults 9 times with 3 frames
but 10 times with 4 frames — increasing the frame capacity increased the
fault count (Belady's anomaly), so the monotonicity claim fails for
`ClockAlgorithm`. -/
theorem clock_belady_anomaly :
    clockFaults ["1","2","3","4","1","2","5","1","2","3","4","5"] 3 = 9 ∧
    clockFaults ["1","2","3","4","1","2","5","1","2","3","4","5"] 4 = 10 ∧
    ¬ (clockFaults ["1","2","3","4","1","2","5","1","2","3","4","5"] 4 ≤
        clockFaults ["1","2","3","4","1","2","5","1","2","3","4","5"] 3) :=
  ⟨by decide, by decide, by decide⟩

/-! ## Canonical Belady cost: basic facts -/

/-- `nextInf` is at most the trace length. -/
lemma nextInf_le_length (t : List Page) (q : Page) : nextInf t q ≤ t.length :=
  List.findIdx_le_length _

/-- `nextInf` is below the trace length exactly for pages that occur. -/
lemma nextInf_lt_length_iff (t : List Page) (q : Page) :
    nextInf t q < t.length ↔ q ∈ t := by
  unfold nextInf
  rw [List.findIdx_lt_length]
  constructor
  · rintro ⟨x, hx, hdec⟩
    obtain rfl : x = q := by simpa using hdec
    exact hx
  · intro hq
    exact ⟨q, hq, by simp⟩

/-- `nextInf` equals the trace length exactly for pages that never occur. -/
lemma nextInf_eq_length_iff (t : List Page) (q : Page) :
    nextInf t q = t.length ↔ q ∉ t := by
  have h1 := nextInf_le_length t q
  have h2 := nextInf_lt_length_iff t q
  constructor
  · intro h hq
    rw [← h2] at hq
    omega
  · intro hq
    rcases Nat.lt_or_ge (nextInf t q) t.length with hlt | hge
    · exact absurd (h2.mp hlt) hq
    · omega

/-- The trace position `nextInf t q` (when in range) holds `q` itself. -/
lemma nextInf_getElem (t : List Page) (q : Page) (h : nextInf t q < t.length) :
    t.get ⟨nextInf t q, h⟩ = q := by
  have := @List.findIdx_getElem _ (fun x => decide (x = q)) t h
  rw [List.get_eq_getElem]
  simpa using this

/-- Distinct occurring pages have distinct first occurrences. -/
lemma nextInf_inj (t : List Page) (q1 q2 : Page) (h : nextInf t q1 = nextInf t q2)
    (hlt : nextInf t q1 < t.length) : q1 = q2 := by
  have h1 := nextInf_getElem t q1 hlt
  have h2 := nextInf_getElem t q2 (h ▸ hlt)
  rw [← h1, ← h2]
  congr 1
  exact Fin.ext h

/-- First-occurrence index of a page other than the head. -/
lemma nextInf_cons_ne (p : Page) (t : List Page) (q : Page) (h : p ≠ q) :
    nextInf (p :: t) q = nextInf t q + 1 := by
  unfold nextInf
  rw [List.findIdx_cons]
  simp [h]

/-- First-occurrence index of the head page. -/
lemma nextInf_cons_self (p : Page) (t : List Page) : nextInf (p :: t) p = 0 := by
  unfold nextInf
  rw [List.findIdx_cons]
  simp

/-- The canonical victim is resident. -/
lemma bvictim_mem (t : List Page) (C : Finset Page) (h : C.Nonempty) :
    bvictim t C ∈ C := by
  unfold bvictim
  obtain ⟨a, ha⟩ := h
  have hsort : a ∈ C.sort (· ≤ ·) := (Finset.mem_sort _).mpr ha
  have hne : C.sort (· ≤ ·) ≠ [] := fun hnil => by rw [hnil] at hsort; simp at hsort
  cases harg : (C.sort (· ≤ ·)).argmax (nextInf t) with
  | none => exact absurd (List.argmax_eq_none.mp harg) hne
  | some m => exact (Finset.mem_sort _).mp (List.argmax_mem harg)

/-- The canonical victim carries the maximal next use. -/
lemma bvictim_max (t : List Page) (C : Finset Page) (q : Page) (hq : q ∈ C) :
    nextInf t q ≤ nextInf t (bvictim t C) := by
  unfold bvictim
  have hsort : q ∈ C.sort (· ≤ ·) := (Finset.mem_sort _).mpr hq
  have hne : C.sort (· ≤ ·) ≠ [] := fun hnil => by rw [hnil] at hsort; simp at hsort
  cases harg : (C.sort (· ≤ ·)).argmax (nextInf t) with
  | none => exact absurd (List.argmax_eq_none.mp harg) hne
  | some m => exact List.le_of_mem_argmax hsort harg

lemma bcost_nil (F : Nat) (C : Finset Page) : bcost F [] C = 0 := rfl

lemma bcost_cons (F : Nat) (p : Page) (t : List Page) (C : Finset Page) :
    bcost F (p :: t) C =
      if p ∈ C then bcost F t C
      else if C.card < F then bcost F t (insert p C) + 1
      else bcost F t (insert p (C.erase (bvictim t C))) + 1 := rfl

/-- Mono, cons step: a cache containing another never faults more. -/
lemma bcost_mono_step (F : Nat) (p : Page) (t' : List Page)
    (ihMono : ∀ C C' : Finset Page, C ⊆ C' → C'.card ≤ F →
      bcost F t' C' ≤ bcost F t' C)
    (ihDom : ∀ (Z : Finset Page) (x y : Page), x ∉ Z → y ∉ Z →
      (insert x Z).card ≤ F → nextInf t' x ≤ nextInf t' y →
      bcost F t' (insert x Z) ≤ bcost F t' (insert y Z)) :
    ∀ C C' : Finset Page, C ⊆ C' → C'.card ≤ F →
      bcost F (p :: t') C' ≤ bcost F (p :: t') C := by
  intro C C' hsub hcard
  rw [bcost_cons, bcost_cons]
  by_cases hpC : p ∈ C
  · rw [if_pos hpC, if_pos (hsub hpC)]
    exact ihMono C C' hsub hcard
  · rw [if_neg hpC]
    by_cases hpC' : p ∈ C'
    · rw [if_pos hpC']
      have hcC : C.card < F := by
        have hss : C ⊂ C' := Finset.ssubset_iff_of_subset hsub |>.mpr ⟨p, hpC', hpC⟩
        have := Finset.card_lt_card hss
        omega
      rw [if_pos hcC]
      have h1 : bcost F t' C' ≤ bcost F t' (insert p C) :=
        ihMono (insert p C) C' (Finset.insert_subset hpC' hsub) hcard
      omega
    · rw [if_neg hpC']
      by_cases hcC' : C'.card < F
      · have hcC : C.card < F := lt_of_le_of_lt (Finset.card_le_card hsub) hcC'
        rw [if_pos hcC', if_pos hcC]
        have h1 : bcost F t' (insert p C') ≤ bcost F t' (insert p C) :=
          ihMono _ _ (Finset.insert_subset_insert p hsub)
            (by rw [Finset.card_insert_of_not_mem hpC']; omega)
        omega
      · rw [if_neg hcC']
        have hcCF : C'.card = F := le_antisymm hcard (not_lt.mp hcC')
        by_cases hcC : C.card < F
        · rw [if_pos hcC]
          have hfC' : bvictim t' C' ∈ C' := bvictim_mem t' C' (by
            apply Finset.card_pos.mp
            omega)
          by_cases hfC : bvictim t' C' ∈ C
          · -- the victim is also in the smaller cache: route through an
            -- exchange with a page of C' outside C
            obtain ⟨g, hgC', hgC⟩ : ∃ g ∈ C', g ∉ C := by
              by_contra hno
              push_neg at hno
              have : C' ⊆ C := hno
              have := Finset.card_le_card this
              omega
            have hgf : g ≠ bvictim t' C' := fun hc => hgC (hc ▸ hfC)
            have hgp : g ≠ p := fun hc => hpC' (hc ▸ hgC')
            have hfp : bvictim t' C' ≠ p := fun hc => hpC' (hc ▸ hfC')
            -- W = insert p (C.erase f)
            have hsub1 : insert g (insert p (C.erase (bvictim t' C'))) ⊆
                insert p (C'.erase (bvictim t' C')) := by
              intro x hx
              rcases Finset.mem_insert.mp hx with rfl | hx
              · exact Finset.mem_insert_of_mem (Finset.mem_erase.mpr ⟨hgf, hgC'⟩)
              rcases Finset.mem_insert.mp hx with rfl | hx
              · exact Finset.mem_insert_self _ _
              · rcases Finset.mem_erase.mp hx with ⟨hxf, hxC⟩
                exact Finset.mem_insert_of_mem (Finset.mem_erase.mpr ⟨hxf, hsub hxC⟩)
            have hcd : (insert p (C'.erase (bvictim t' C'))).card ≤ F := by
              rw [Finset.card_insert_of_not_mem
                  (fun hc => hpC' (Finset.mem_of_mem_erase hc)),
                Finset.card_erase_of_mem hfC']
              omega
            have step1 : bcost F t' (insert p (C'.erase (bvictim t' C'))) ≤
                bcost F t' (insert g (insert p (C.erase (bvictim t' C')))) :=
              ihMono _ _ hsub1 hcd
            have hgW : g ∉ insert p (C.erase (bvictim t' C')) := by
              intro hc
              rcases Finset.mem_insert.mp hc with rfl | hc
              · exact hgp rfl
              · exact hgC (Finset.mem_of_mem_erase hc)
            have hfW : bvictim t' C' ∉ insert p (C.erase (bvictim t' C')) := by
              intro hc
              rcases Finset.mem_insert.mp hc with rfl | hc
              · exact hfp rfl
              · exact absurd rfl (Finset.mem_erase.mp hc).1
            have hcd2 : (insert g (insert p (C.erase (bvictim t' C')))).card ≤ F := by
              have hC1 : 1 ≤ C.card := Finset.card_pos.mpr ⟨_, hfC⟩
              rw [Finset.card_insert_of_not_mem hgW,
                Finset.card_insert_of_not_mem
                  (fun hc => hpC (Finset.mem_of_mem_erase hc)),
                Finset.card_erase_of_mem hfC]
              omega
            have step2 : bcost F t' (insert g (insert p (C.erase (bvictim t' C')))) ≤
                bcost F t' (insert (bvictim t' C') (insert p (C.erase (bvictim t' C')))) :=
              ihDom _ g (bvictim t' C') hgW hfW hcd2 (bvictim_max t' C' g hgC')
            have hWf : insert (bvictim t' C') (insert p (C.erase (bvictim t' C'))) =
                insert p C := by
              rw [Finset.Insert.comm, Finset.insert_erase hfC]
            rw [hWf] at step2
            omega
          · -- the victim is outside C: the big cache still contains C
            have hsub1 : insert p C ⊆ insert p (C'.erase (bvictim t' C')) := by
              intro x hx
              rcases Finset.mem_insert.mp hx with rfl | hx
              · exact Finset.mem_insert_self _ _
              · refine Finset.mem_insert_of_mem (Finset.mem_erase.mpr ⟨?_, hsub hx⟩)
                intro hc
                exact hfC (hc ▸ hx)
            have hcd : (insert p (C'.erase (bvictim t' C'))).card ≤ F := by
              rw [Finset.card_insert_of_not_mem
                  (fun hc => hpC' (Finset.mem_of_mem_erase hc)),
                Finset.card_erase_of_mem hfC']
              omega
            have h1 := ihMono _ _ hsub1 hcd
            omega
        · have hcCC : C.card = F := by
            have := Finset.card_le_card hsub
            omega
          obtain rfl : C = C' := Finset.eq_of_subset_of_card_le hsub (by omega)
          rw [if_neg hcC]

/-- AddOne, cons step: a cache missing one extra page faults at most once
more. -/
lemma bcost_add_step (F : Nat) (p : Page) (t' : List Page)
    (ihAdd : ∀ (C : Finset Page) (y : Page), y ∉ C → C.card < F →
      bcost F t' C ≤ bcost F t' (insert y C) + 1)
    (ihDiff : ∀ (Z : Finset Page) (a b : Page), a ∉ Z → b ∉ Z →
      (insert a Z).card ≤ F →
      bcost F t' (insert a Z) ≤ bcost F t' (insert b Z) + 1) :
    ∀ (C : Finset Page) (y : Page), y ∉ C → C.card < F →
      bcost F (p :: t') C ≤ bcost F (p :: t') (insert y C) + 1 := by
  intro C y hy hcard
  rw [bcost_cons, bcost_cons]
  by_cases hpC : p ∈ C
  · rw [if_pos hpC, if_pos (Finset.mem_insert_of_mem hpC)]
    exact ihAdd C y hy hcard
  · rw [if_neg hpC]
    by_cases hpy : p = y
    · subst hpy
      rw [if_pos (Finset.mem_insert_self p C), if_pos hcard]
    · have hpCy : p ∉ insert y C := by
        intro hc
        rcases Finset.mem_insert.mp hc with rfl | hc
        · exact hpy rfl
        · exact hpC hc
      rw [if_neg hpCy, if_pos hcard]
      by_cases hcy : (insert y C).card < F
      · rw [if_pos hcy]
        have hyp : y ∉ insert p C := by
          intro hc
          rcases Finset.mem_insert.mp hc with rfl | hc
          · exact hpy rfl
          · exact hy hc
        have h1 := ihAdd (insert p C) y hyp
          (by rw [Finset.card_insert_of_not_mem hpC]
              rw [Finset.card_insert_of_not_mem hy] at hcy
              omega)
        rw [Finset.Insert.comm] at h1
        omega
      · rw [if_neg hcy]
        have hne : (insert y C).Nonempty := ⟨y, Finset.mem_insert_self _ _⟩
        rcases Finset.mem_insert.mp (bvictim_mem t' (insert y C) hne) with hf | hf
        · rw [hf, Finset.erase_insert hy]
          omega
        · -- victim is some c ∈ C
          have hfy : bvictim t' (insert y C) ≠ y := fun hc => hy (hc ▸ hf)
          have hfp : bvictim t' (insert y C) ≠ p := fun hc => hpC (hc ▸ hf)
          have hrw : insert p ((insert y C).erase (bvictim t' (insert y C))) =
              insert y (insert p (C.erase (bvictim t' (insert y C)))) := by
            rw [Finset.erase_insert_of_ne hfy.symm, Finset.Insert.comm]
          rw [hrw]
          have hfW : bvictim t' (insert y C) ∉
              insert p (C.erase (bvictim t' (insert y C))) := by
            intro hc
            rcases Finset.mem_insert.mp hc with hc | hc
            · exact hfp hc
            · exact absurd rfl (Finset.mem_erase.mp hc).1
          have hyW : y ∉ insert p (C.erase (bvictim t' (insert y C))) := by
            intro hc
            rcases Finset.mem_insert.mp hc with hc | hc
            · exact hpy hc.symm
            · exact hy (Finset.mem_of_mem_erase hc)
          have hWfC : insert (bvictim t' (insert y C))
              (insert p (C.erase (bvictim t' (insert y C)))) = insert p C := by
            rw [Finset.Insert.comm, Finset.insert_erase hf]
          have hcd : (insert (bvictim t' (insert y C))
              (insert p (C.erase (bvictim t' (insert y C))))).card ≤ F := by
            rw [hWfC, Finset.card_insert_of_not_mem hpC]
            omega
          have h1 := ihDiff _ (bvictim t' (insert y C)) y hfW hyW hcd
          rw [hWfC] at h1
          omega

/-- Diff1, cons step: caches differing in a single exchanged page have
fault counts within one of each other. -/
lemma bcost_diff_step (F : Nat) (p : Page) (t' : List Page)
    (ihMono : ∀ C C' : Finset Page, C ⊆ C' → C'.card ≤ F →
      bcost F t' C' ≤ bcost F t' C)
    (ihAdd : ∀ (C : Finset Page) (y : Page), y ∉ C → C.card < F →
      bcost F t' C ≤ bcost F t' (insert y C) + 1)
    (ihDiff : ∀ (Z : Finset Page) (a b : Page), a ∉ Z → b ∉ Z →
      (insert a Z).card ≤ F →
      bcost F t' (insert a Z) ≤ bcost F t' (insert b Z) + 1)
    (ihDom : ∀ (Z : Finset Page) (x y : Page), x ∉ Z → y ∉ Z →
      (insert x Z).card ≤ F → nextInf t' x ≤ nextInf t' y →
      bcost F t' (insert x Z) ≤ bcost F t' (insert y Z)) :
    ∀ (Z : Finset Page) (a b : Page), a ∉ Z → b ∉ Z →
      (insert a Z).card ≤ F →
      bcost F (p :: t') (insert a Z) ≤ bcost F (p :: t') (insert b Z) + 1 := by
  intro Z a b ha hb hcard
  by_cases hab : a = b
  · subst hab
    exact Nat.le_succ _
  have hcardZ : Z.card + 1 = (insert a Z).card :=
    (Finset.card_insert_of_not_mem ha).symm
  have hcardb : (insert b Z).card = (insert a Z).card := by
    rw [Finset.card_insert_of_not_mem ha, Finset.card_insert_of_not_mem hb]
  rw [bcost_cons, bcost_cons]
  by_cases hpZ : p ∈ Z
  · rw [if_pos (Finset.mem_insert_of_mem hpZ), if_pos (Finset.mem_insert_of_mem hpZ)]
    exact ihDiff Z a b ha hb hcard
  by_cases hpa : p = a
  · subst hpa
    have hpC2 : p ∉ insert b Z := by
      intro hc
      rcases Finset.mem_insert.mp hc with hc | hc
      · exact hab hc
      · exact ha hc
    rw [if_pos (Finset.mem_insert_self p Z), if_neg hpC2]
    by_cases hc2 : (insert b Z).card < F
    · rw [if_pos hc2]
      have hbC1 : b ∉ insert p Z := by
        intro hc
        rcases Finset.mem_insert.mp hc with hc | hc
        · exact hab hc.symm
        · exact hb hc
      have h1 := ihAdd (insert p Z) b hbC1 (by omega)
      rw [Finset.Insert.comm] at h1
      omega
    · rw [if_neg hc2]
      have hne : (insert b Z).Nonempty := ⟨b, Finset.mem_insert_self _ _⟩
      rcases Finset.mem_insert.mp (bvictim_mem t' (insert b Z) hne) with hf | hf
      · rw [hf, Finset.erase_insert hb]
        omega
      · -- victim z ∈ Z
        have hzb : bvictim t' (insert b Z) ≠ b := fun hc => hb (hc ▸ hf)
        have hza : bvictim t' (insert b Z) ≠ p := fun hc => ha (hc ▸ hf)
        have hrw : insert p ((insert b Z).erase (bvictim t' (insert b Z))) =
            insert b (insert p (Z.erase (bvictim t' (insert b Z)))) := by
          rw [Finset.erase_insert_of_ne hzb.symm, Finset.Insert.comm]
        rw [hrw]
        have hC1W : insert (bvictim t' (insert b Z))
            (insert p (Z.erase (bvictim t' (insert b Z)))) = insert p Z := by
          rw [Finset.Insert.comm, Finset.insert_erase hf]
        have hzW : bvictim t' (insert b Z) ∉
            insert p (Z.erase (bvictim t' (insert b Z))) := by
          intro hc
          rcases Finset.mem_insert.mp hc with hc | hc
          · exact hza hc
          · exact absurd rfl (Finset.mem_erase.mp hc).1
        have hbW : b ∉ insert p (Z.erase (bvictim t' (insert b Z))) := by
          intro hc
          rcases Finset.mem_insert.mp hc with hc | hc
          · exact hab hc.symm
          · exact hb (Finset.mem_of_mem_erase hc)
        have hcd : (insert (bvictim t' (insert b Z))
            (insert p (Z.erase (bvictim t' (insert b Z))))).card ≤ F := by
          rw [hC1W]
          exact hcard
        have h1 := ihDiff _ (bvictim t' (insert b Z)) b hzW hbW hcd
        rw [hC1W] at h1
        omega
  by_cases hpb : p = b
  · subst hpb
    have hpC1 : p ∉ insert a Z := by
      intro hc
      rcases Finset.mem_insert.mp hc with hc | hc
      · exact hab hc.symm
      · exact hb hc
    rw [if_neg hpC1, if_pos (Finset.mem_insert_self p Z)]
    by_cases hc1 : (insert a Z).card < F
    · rw [if_pos hc1]
      have hsub : insert p Z ⊆ insert p (insert a Z) :=
        Finset.insert_subset_insert p (Finset.subset_insert a Z)
      have h1 := ihMono (insert p Z) (insert p (insert a Z)) hsub
        (by rw [Finset.card_insert_of_not_mem hpC1]; omega)
      omega
    · rw [if_neg hc1]
      have hne : (insert a Z).Nonempty := ⟨a, Finset.mem_insert_self _ _⟩
      rcases Finset.mem_insert.mp (bvictim_mem t' (insert a Z) hne) with hf | hf
      · rw [hf, Finset.erase_insert ha]
      · have hza : bvictim t' (insert a Z) ≠ a := fun hc => ha (hc ▸ hf)
        have hzp : bvictim t' (insert a Z) ≠ p := fun hc => hb (hc ▸ hf)
        have hrw : insert p ((insert a Z).erase (bvictim t' (insert a Z))) =
            insert a (insert p (Z.erase (bvictim t' (insert a Z)))) := by
          rw [Finset.erase_insert_of_ne hza.symm, Finset.Insert.comm]
        rw [hrw]
        have hC2W : insert (bvictim t' (insert a Z))
            (insert p (Z.erase (bvictim t' (insert a Z)))) = insert p Z := by
          rw [Finset.Insert.comm, Finset.insert_erase hf]
        have haW : a ∉ insert p (Z.erase (bvictim t' (insert a Z))) := by
          intro hc
          rcases Finset.mem_insert.mp hc with hc | hc
          · exact hab hc
          · exact ha (Finset.mem_of_mem_erase hc)
        have hzW : bvictim t' (insert a Z) ∉
            insert p (Z.erase (bvictim t' (insert a Z))) := by
          intro hc
          rcases Finset.mem_insert.mp hc with hc | hc
          · exact hzp hc
          · exact absurd rfl (Finset.mem_erase.mp hc).1
        have hcd : (insert a (insert p (Z.erase (bvictim t' (insert a Z))))).card ≤ F := by
          have h2 : 1 ≤ Z.card := Finset.card_pos.mpr ⟨_, hf⟩
          rw [Finset.card_insert_of_not_mem haW,
            Finset.card_insert_of_not_mem (fun hc => hpZ (Finset.mem_of_mem_erase hc)),
            Finset.card_erase_of_mem hf]
          omega
        have h1 := ihDom _ a (bvictim t' (insert a Z)) haW hzW hcd
          (bvictim_max t' (insert a Z) a (Finset.mem_insert_self _ _))
        rw [hC2W] at h1
        omega
  · -- p misses in both caches
    have hpC1 : p ∉ insert a Z := by
      intro hc
      rcases Finset.mem_insert.mp hc with hc | hc
      · exact hpa hc
      · exact hpZ hc
    have hpC2 : p ∉ insert b Z := by
      intro hc
      rcases Finset.mem_insert.mp hc with hc | hc
      · exact hpb hc
      · exact hpZ hc
    rw [if_neg hpC1, if_neg hpC2, hcardb]
    by_cases hc1 : (insert a Z).card < F
    · rw [if_pos hc1, if_pos hc1]
      have haZ' : a ∉ insert p Z := by
        intro hc
        rcases Finset.mem_insert.mp hc with hc | hc
        · exact hpa hc.symm
        · exact ha hc
      have hbZ' : b ∉ insert p Z := by
        intro hc
        rcases Finset.mem_insert.mp hc with hc | hc
        · exact hpb hc.symm
        · exact hb hc
      have h1 := ihDiff (insert p Z) a b haZ' hbZ'
        (by
          rw [Finset.card_insert_of_not_mem haZ',
            Finset.card_insert_of_not_mem hpZ]
          omega)
      rw [Finset.Insert.comm a p, Finset.Insert.comm b p] at h1
      omega
    · rw [if_neg hc1, if_neg hc1]
      have hne1 : (insert a Z).Nonempty := ⟨a, Finset.mem_insert_self _ _⟩
      have hne2 : (insert b Z).Nonempty := ⟨b, Finset.mem_insert_self _ _⟩
      rcases Finset.mem_insert.mp (bvictim_mem t' (insert a Z) hne1) with hf1 | hf1 <;>
        rcases Finset.mem_insert.mp (bvictim_mem t' (insert b Z) hne2) with hf2 | hf2
      · -- f1 = a, f2 = b
        rw [hf1, hf2, Finset.erase_insert ha, Finset.erase_insert hb]
        omega
      · -- f1 = a, f2 = z2 ∈ Z
        rw [hf1, Finset.erase_insert ha]
        have hz2b : bvictim t' (insert b Z) ≠ b := fun hc => hb (hc ▸ hf2)
        have hz2p : bvictim t' (insert b Z) ≠ p := fun hc => hpZ (hc ▸ hf2)
        have hrw2 : insert p ((insert b Z).erase (bvictim t' (insert b Z))) =
            insert b (insert p (Z.erase (bvictim t' (insert b Z)))) := by
          rw [Finset.erase_insert_of_ne hz2b.symm, Finset.Insert.comm]
        rw [hrw2]
        have hVz : insert (bvictim t' (insert b Z))
            (insert p (Z.erase (bvictim t' (insert b Z)))) = insert p Z := by
          rw [Finset.Insert.comm, Finset.insert_erase hf2]
        have hzV : bvictim t' (insert b Z) ∉
            insert p (Z.erase (bvictim t' (insert b Z))) := by
          intro hc
          rcases Finset.mem_insert.mp hc with hc | hc
          · exact hz2p hc
          · exact absurd rfl (Finset.mem_erase.mp hc).1
        have hbV : b ∉ insert p (Z.erase (bvictim t' (insert b Z))) := by
          intro hc
          rcases Finset.mem_insert.mp hc with hc | hc
          · exact hpb hc.symm
          · exact hb (Finset.mem_of_mem_erase hc)
        have hcd : (insert (bvictim t' (insert b Z))
            (insert p (Z.erase (bvictim t' (insert b Z))))).card ≤ F := by
          rw [hVz, Finset.card_insert_of_not_mem hpZ]
          omega
        have h1 := ihDiff _ (bvictim t' (insert b Z)) b hzV hbV hcd
        rw [hVz] at h1
        omega
      · -- f1 = z1 ∈ Z, f2 = b
        rw [hf2, Finset.erase_insert hb]
        have hz1a : bvictim t' (insert a Z) ≠ a := fun hc => ha (hc ▸ hf1)
        have hz1p : bvictim t' (insert a Z) ≠ p := fun hc => hpZ (hc ▸ hf1)
        have hrw1 : insert p ((insert a Z).erase (bvictim t' (insert a Z))) =
            insert a (insert p (Z.erase (bvictim t' (insert a Z)))) := by
          rw [Finset.erase_insert_of_ne hz1a.symm, Finset.Insert.comm]
        rw [hrw1]
        have hVz : insert (bvictim t' (insert a Z))
            (insert p (Z.erase (bvictim t' (insert a Z)))) = insert p Z := by
          rw [Finset.Insert.comm, Finset.insert_erase hf1]
        have haV : a ∉ insert p (Z.erase (bvictim t' (insert a Z))) := by
          intro hc
          rcases Finset.mem_insert.mp hc with hc | hc
          · exact hpa hc.symm
          · exact ha (Finset.mem_of_mem_erase hc)
        have hzV : bvictim t' (insert a Z) ∉
            insert p (Z.erase (bvictim t' (insert a Z))) := by
          intro hc
          rcases Finset.mem_insert.mp hc with hc | hc
          · exact hz1p hc
          · exact absurd rfl (Finset.mem_erase.mp hc).1
        have hcd : (insert a (insert p (Z.erase (bvictim t' (insert a Z))))).card ≤ F := by
          have h2 : 1 ≤ Z.card := Finset.card_pos.mpr ⟨_, hf1⟩
          rw [Finset.card_insert_of_not_mem haV,
            Finset.card_insert_of_not_mem (fun hc => hpZ (Finset.mem_of_mem_erase hc)),
            Finset.card_erase_of_mem hf1]
          omega
        have h1 := ihDom _ a (bvictim t' (insert a Z)) haV hzV hcd
          (bvictim_max t' (insert a Z) a (Finset.mem_insert_self _ _))
        rw [hVz] at h1
        omega
      · -- f1 = z1 ∈ Z, f2 = z2 ∈ Z
        have hz1a : bvictim t' (insert a Z) ≠ a := fun hc => ha (hc ▸ hf1)
        have hz1p : bvictim t' (insert a Z) ≠ p := fun hc => hpZ (hc ▸ hf1)
        have hz2b : bvictim t' (insert b Z) ≠ b := fun hc => hb (hc ▸ hf2)
        have hz2p : bvictim t' (insert b Z) ≠ p := fun hc => hpZ (hc ▸ hf2)
        have hrw1 : insert p ((insert a Z).erase (bvictim t' (insert a Z))) =
            insert a (insert p (Z.erase (bvictim t' (insert a Z)))) := by
          rw [Finset.erase_insert_of_ne hz1a.symm, Finset.Insert.comm]
        have hrw2 : insert p ((insert b Z).erase (bvictim t' (insert b Z))) =
            insert b (insert p (Z.erase (bvictim t' (insert b Z)))) := by
          rw [Finset.erase_insert_of_ne hz2b.symm, Finset.Insert.comm]
        rw [hrw1, hrw2]
        by_cases hz12 : bvictim t' (insert a Z) = bvictim t' (insert b Z)
        · rw [← hz12]
          have haV : a ∉ insert p (Z.erase (bvictim t' (insert a Z))) := by
            intro hc
            rcases Finset.mem_insert.mp hc with hc | hc
            · exact hpa hc.symm
            · exact ha (Finset.mem_of_mem_erase hc)
          have hbV : b ∉ insert p (Z.erase (bvictim t' (insert a Z))) := by
            intro hc
            rcases Finset.mem_insert.mp hc with hc | hc
            · exact hpb hc.symm
            · exact hb (Finset.mem_of_mem_erase hc)
          have hcd : (insert a (insert p (Z.erase (bvictim t' (insert a Z))))).card ≤ F := by
            have h2 : 1 ≤ Z.card := Finset.card_pos.mpr ⟨_, hf1⟩
            rw [Finset.card_insert_of_not_mem haV,
              Finset.card_insert_of_not_mem (fun hc => hpZ (Finset.mem_of_mem_erase hc)),
              Finset.card_erase_of_mem hf1]
            omega
          have h1 := ihDiff _ a b haV hbV hcd
          omega
        · -- distinct victims: exchange twice
          have hz2mem : bvictim t' (insert b Z) ∈
              Z.erase (bvictim t' (insert a Z)) :=
            Finset.mem_erase.mpr ⟨fun hc => hz12 hc.symm, hf2⟩
          have hstep1 : insert p (Z.erase (bvictim t' (insert a Z))) =
              insert (bvictim t' (insert b Z))
                (insert p ((Z.erase (bvictim t' (insert a Z))).erase
                  (bvictim t' (insert b Z)))) := by
            conv =>
              lhs
              rw [← Finset.insert_erase hz2mem]
            rw [Finset.Insert.comm]
          have hU1 : insert a (insert p (Z.erase (bvictim t' (insert a Z)))) =
              insert (bvictim t' (insert b Z))
                (insert a (insert p ((Z.erase (bvictim t' (insert a Z))).erase
                  (bvictim t' (insert b Z))))) := by
            rw [hstep1, Finset.Insert.comm a]
          have hmid : insert (bvictim t' (insert a Z))
              (insert a (insert p ((Z.erase (bvictim t' (insert a Z))).erase
                (bvictim t' (insert b Z))))) =
              insert a (insert p (Z.erase (bvictim t' (insert b Z)))) := by
            rw [Finset.Insert.comm _ a, Finset.Insert.comm _ p]
            congr 1
            congr 1
            rw [Finset.erase_right_comm, Finset.insert_erase
              (Finset.mem_erase.mpr ⟨hz12, hf1⟩)]
          have hz2U : bvictim t' (insert b Z) ∉
              insert a (insert p ((Z.erase (bvictim t' (insert a Z))).erase
                (bvictim t' (insert b Z)))) := by
            intro hc
            rcases Finset.mem_insert.mp hc with hc | hc
            · exact ha (hc ▸ hf2)
            rcases Finset.mem_insert.mp hc with hc | hc
            · exact hz2p hc
            · exact absurd rfl (Finset.mem_erase.mp hc).1
          have hz1U : bvictim t' (insert a Z) ∉
              insert a (insert p ((Z.erase (bvictim t' (insert a Z))).erase
                (bvictim t' (insert b Z)))) := by
            intro hc
            rcases Finset.mem_insert.mp hc with hc | hc
            · exact hz1a hc
            rcases Finset.mem_insert.mp hc with hc | hc
            · exact hz1p hc
            · exact absurd rfl (Finset.mem_erase.mp (Finset.mem_of_mem_erase hc)).1
          have hcdU : (insert (bvictim t' (insert b Z))
              (insert a (insert p ((Z.erase (bvictim t' (insert a Z))).erase
                (bvictim t' (insert b Z)))))).card ≤ F := by
            rw [← hU1]
            have h2 : 1 ≤ Z.card := Finset.card_pos.mpr ⟨_, hf1⟩
            have haV : a ∉ insert p (Z.erase (bvictim t' (insert a Z))) := by
              intro hc
              rcases Finset.mem_insert.mp hc with hc | hc
              · exact hpa hc.symm
              · exact ha (Finset.mem_of_mem_erase hc)
            rw [Finset.card_insert_of_not_mem haV,
              Finset.card_insert_of_not_mem (fun hc => hpZ (Finset.mem_of_mem_erase hc)),
              Finset.card_erase_of_mem hf1]
            omega
          have hkey : nextInf t' (bvictim t' (insert b Z)) ≤
              nextInf t' (bvictim t' (insert a Z)) :=
            bvictim_max t' (insert a Z) _ (Finset.mem_insert_of_mem hf2)
          have hchain1 := ihDom _ (bvictim t' (insert b Z)) (bvictim t' (insert a Z))
            hz2U hz1U hcdU hkey
          rw [← hU1, hmid] at hchain1
          -- second exchange: a against b over V2
          have haV2 : a ∉ insert p (Z.erase (bvictim t' (insert b Z))) := by
            intro hc
            rcases Finset.mem_insert.mp hc with hc | hc
            · exact hpa hc.symm
            · exact ha (Finset.mem_of_mem_erase hc)
          have hbV2 : b ∉ insert p (Z.erase (bvictim t' (insert b Z))) := by
            intro hc
            rcases Finset.mem_insert.mp hc with hc | hc
            · exact hpb hc.symm
            · exact hb (Finset.mem_of_mem_erase hc)
          have hcdV2 : (insert a (insert p (Z.erase (bvictim t' (insert b Z))))).card ≤ F := by
            have h2 : 1 ≤ Z.card := Finset.card_pos.mpr ⟨_, hf2⟩
            rw [Finset.card_insert_of_not_mem haV2,
              Finset.card_insert_of_not_mem (fun hc => hpZ (Finset.mem_of_mem_erase hc)),
              Finset.card_erase_of_mem hf2]
            omega
          have hchain2 := ihDiff _ a b haV2 hbV2 hcdV2
          omega

/-- Dominance, cons step: holding a page used no later than another costs
no more. -/
lemma bcost_dom_step (F : Nat) (p : Page) (t' : List Page)
    (ihAdd : ∀ (C : Finset Page) (y : Page), y ∉ C → C.card < F →
      bcost F t' C ≤ bcost F t' (insert y C) + 1)
    (ihDiff : ∀ (Z : Finset Page) (a b : Page), a ∉ Z → b ∉ Z →
      (insert a Z).card ≤ F →
      bcost F t' (insert a Z) ≤ bcost F t' (insert b Z) + 1)
    (ihDom : ∀ (Z : Finset Page) (x y : Page), x ∉ Z → y ∉ Z →
      (insert x Z).card ≤ F → nextInf t' x ≤ nextInf t' y →
      bcost F t' (insert x Z) ≤ bcost F t' (insert y Z)) :
    ∀ (Z : Finset Page) (x y : Page), x ∉ Z → y ∉ Z →
      (insert x Z).card ≤ F → nextInf (p :: t') x ≤ nextInf (p :: t') y →
      bcost F (p :: t') (insert x Z) ≤ bcost F (p :: t') (insert y Z) := by
  intro Z x y hx hy hcard hle
  by_cases hxy : x = y
  · subst hxy
    exact le_refl _
  have hcardy : (insert y Z).card = (insert x Z).card := by
    rw [Finset.card_insert_of_not_mem hx, Finset.card_insert_of_not_mem hy]
  have hcardZ : Z.card + 1 = (insert x Z).card :=
    (Finset.card_insert_of_not_mem hx).symm
  by_cases hpy : p = y
  · exfalso
    subst hpy
    rw [nextInf_cons_self] at hle
    by_cases hpx : p = x
    · exact hxy (hpx.symm.trans rfl)
    · rw [nextInf_cons_ne p t' x hpx] at hle
      omega
  rw [bcost_cons, bcost_cons]
  by_cases hpx : p = x
  · subst hpx
    have hpC2 : p ∉ insert y Z := by
      intro hc
      rcases Finset.mem_insert.mp hc with hc | hc
      · exact hpy hc
      · exact hx hc
    rw [if_pos (Finset.mem_insert_self p Z), if_neg hpC2]
    by_cases hc2 : (insert y Z).card < F
    · rw [if_pos hc2]
      have hyC1 : y ∉ insert p Z := by
        intro hc
        rcases Finset.mem_insert.mp hc with hc | hc
        · exact hpy hc.symm
        · exact hy hc
      have h1 := ihAdd (insert p Z) y hyC1 (by omega)
      rw [Finset.Insert.comm] at h1
      exact h1
    · rw [if_neg hc2]
      have hne : (insert y Z).Nonempty := ⟨y, Finset.mem_insert_self _ _⟩
      rcases Finset.mem_insert.mp (bvictim_mem t' (insert y Z) hne) with hf | hf
      · rw [hf, Finset.erase_insert hy]
        omega
      · have hzy : bvictim t' (insert y Z) ≠ y := fun hc => hy (hc ▸ hf)
        have hzp : bvictim t' (insert y Z) ≠ p := fun hc => hx (hc ▸ hf)
        have hrw : insert p ((insert y Z).erase (bvictim t' (insert y Z))) =
            insert y (insert p (Z.erase (bvictim t' (insert y Z)))) := by
          rw [Finset.erase_insert_of_ne hzy.symm, Finset.Insert.comm]
        rw [hrw]
        have hC1W : insert (bvictim t' (insert y Z))
            (insert p (Z.erase (bvictim t' (insert y Z)))) = insert p Z := by
          rw [Finset.Insert.comm, Finset.insert_erase hf]
        have hzW : bvictim t' (insert y Z) ∉
            insert p (Z.erase (bvictim t' (insert y Z))) := by
          intro hc
          rcases Finset.mem_insert.mp hc with hc | hc
          · exact hzp hc
          · exact absurd rfl (Finset.mem_erase.mp hc).1
        have hyW : y ∉ insert p (Z.erase (bvictim t' (insert y Z))) := by
          intro hc
          rcases Finset.mem_insert.mp hc with hc | hc
          · exact hpy hc.symm
          · exact hy (Finset.mem_of_mem_erase hc)
        have hcd : (insert (bvictim t' (insert y Z))
            (insert p (Z.erase (bvictim t' (insert y Z))))).card ≤ F := by
          rw [hC1W]
          exact hcard
        have h1 := ihDiff _ (bvictim t' (insert y Z)) y hzW hyW hcd
        rw [hC1W] at h1
        omega
  · -- p differs from x and y
    have hlet' : nextInf t' x ≤ nextInf t' y := by
      rw [nextInf_cons_ne p t' x hpx, nextInf_cons_ne p t' y hpy] at hle
      omega
    by_cases hpZ : p ∈ Z
    · rw [if_pos (Finset.mem_insert_of_mem hpZ), if_pos (Finset.mem_insert_of_mem hpZ)]
      exact ihDom Z x y hx hy hcard hlet'
    have hpC1 : p ∉ insert x Z := by
      intro hc
      rcases Finset.mem_insert.mp hc with hc | hc
      · exact hpx hc
      · exact hpZ hc
    have hpC2 : p ∉ insert y Z := by
      intro hc
      rcases Finset.mem_insert.mp hc with hc | hc
      · exact hpy hc
      · exact hpZ hc
    rw [if_neg hpC1, if_neg hpC2, hcardy]
    by_cases hc1 : (insert x Z).card < F
    · rw [if_pos hc1, if_pos hc1]
      have hxZ' : x ∉ insert p Z := by
        intro hc
        rcases Finset.mem_insert.mp hc with hc | hc
        · exact hpx hc.symm
        · exact hx hc
      have hyZ' : y ∉ insert p Z := by
        intro hc
        rcases Finset.mem_insert.mp hc with hc | hc
        · exact hpy hc.symm
        · exact hy hc
      have h1 := ihDom (insert p Z) x y hxZ' hyZ'
        (by
          rw [Finset.card_insert_of_not_mem hxZ', Finset.card_insert_of_not_mem hpZ]
          omega)
        hlet'
      rw [Finset.Insert.comm x p, Finset.Insert.comm y p] at h1
      omega
    · rw [if_neg hc1, if_neg hc1]
      have hne1 : (insert x Z).Nonempty := ⟨x, Finset.mem_insert_self _ _⟩
      have hne2 : (insert y Z).Nonempty := ⟨y, Finset.mem_insert_self _ _⟩
      rcases Finset.mem_insert.mp (bvictim_mem t' (insert x Z) hne1) with hf1 | hf1 <;>
        rcases Finset.mem_insert.mp (bvictim_mem t' (insert y Z) hne2) with hf2 | hf2
      · -- f1 = x, f2 = y
        rw [hf1, hf2, Finset.erase_insert hx, Finset.erase_insert hy]
      · -- f1 = x, f2 = e2 ∈ Z
        rw [hf1, Finset.erase_insert hx]
        have hz2y : bvictim t' (insert y Z) ≠ y := fun hc => hy (hc ▸ hf2)
        have hz2p : bvictim t' (insert y Z) ≠ p := fun hc => hpZ (hc ▸ hf2)
        have hrw2 : insert p ((insert y Z).erase (bvictim t' (insert y Z))) =
            insert y (insert p (Z.erase (bvictim t' (insert y Z)))) := by
          rw [Finset.erase_insert_of_ne hz2y.symm, Finset.Insert.comm]
        rw [hrw2]
        have hVz : insert (bvictim t' (insert y Z))
            (insert p (Z.erase (bvictim t' (insert y Z)))) = insert p Z := by
          rw [Finset.Insert.comm, Finset.insert_erase hf2]
        have hzV : bvictim t' (insert y Z) ∉
            insert p (Z.erase (bvictim t' (insert y Z))) := by
          intro hc
          rcases Finset.mem_insert.mp hc with hc | hc
          · exact hz2p hc
          · exact absurd rfl (Finset.mem_erase.mp hc).1
        have hyV : y ∉ insert p (Z.erase (bvictim t' (insert y Z))) := by
          intro hc
          rcases Finset.mem_insert.mp hc with hc | hc
          · exact hpy hc.symm
          · exact hy (Finset.mem_of_mem_erase hc)
        have hcd : (insert (bvictim t' (insert y Z))
            (insert p (Z.erase (bvictim t' (insert y Z))))).card ≤ F := by
          rw [hVz, Finset.card_insert_of_not_mem hpZ]
          omega
        have hkey2 : nextInf t' (bvictim t' (insert y Z)) ≤ nextInf t' y := by
          have h1 := bvictim_max t' (insert x Z) (bvictim t' (insert y Z))
            (Finset.mem_insert_of_mem hf2)
          rw [hf1] at h1
          omega
        have h1 := ihDom _ (bvictim t' (insert y Z)) y hzV hyV hcd hkey2
        rw [hVz] at h1
        omega
      · -- f1 = e1 ∈ Z, f2 = y
        rw [hf2, Finset.erase_insert hy]
        have hz1x : bvictim t' (insert x Z) ≠ x := fun hc => hx (hc ▸ hf1)
        have hz1p : bvictim t' (insert x Z) ≠ p := fun hc => hpZ (hc ▸ hf1)
        have hrw1 : insert p ((insert x Z).erase (bvictim t' (insert x Z))) =
            insert x (insert p (Z.erase (bvictim t' (insert x Z)))) := by
          rw [Finset.erase_insert_of_ne hz1x.symm, Finset.Insert.comm]
        rw [hrw1]
        have hVz : insert (bvictim t' (insert x Z))
            (insert p (Z.erase (bvictim t' (insert x Z)))) = insert p Z := by
          rw [Finset.Insert.comm, Finset.insert_erase hf1]
        have hxV : x ∉ insert p (Z.erase (bvictim t' (insert x Z))) := by
          intro hc
          rcases Finset.mem_insert.mp hc with hc | hc
          · exact hpx hc.symm
          · exact hx (Finset.mem_of_mem_erase hc)
        have hzV : bvictim t' (insert x Z) ∉
            insert p (Z.erase (bvictim t' (insert x Z))) := by
          intro hc
          rcases Finset.mem_insert.mp hc with hc | hc
          · exact hz1p hc
          · exact absurd rfl (Finset.mem_erase.mp hc).1
        have hcd : (insert x (insert p (Z.erase (bvictim t' (insert x Z))))).card ≤ F := by
          have h2 : 1 ≤ Z.card := Finset.card_pos.mpr ⟨_, hf1⟩
          rw [Finset.card_insert_of_not_mem hxV,
            Finset.card_insert_of_not_mem (fun hc => hpZ (Finset.mem_of_mem_erase hc)),
            Finset.card_erase_of_mem hf1]
          omega
        have h1 := ihDom _ x (bvictim t' (insert x Z)) hxV hzV hcd
          (bvictim_max t' (insert x Z) x (Finset.mem_insert_self _ _))
        rw [hVz] at h1
        omega
      · -- f1 = e1 ∈ Z, f2 = e2 ∈ Z
        have hz1x : bvictim t' (insert x Z) ≠ x := fun hc => hx (hc ▸ hf1)
        have hz1p : bvictim t' (insert x Z) ≠ p := fun hc => hpZ (hc ▸ hf1)
        have hz2y : bvictim t' (insert y Z) ≠ y := fun hc => hy (hc ▸ hf2)
        have hz2p : bvictim t' (insert y Z) ≠ p := fun hc => hpZ (hc ▸ hf2)
        have hrw1 : insert p ((insert x Z).erase (bvictim t' (insert x Z))) =
            insert x (insert p (Z.erase (bvictim t' (insert x Z)))) := by
          rw [Finset.erase_insert_of_ne hz1x.symm, Finset.Insert.comm]
        have hrw2 : insert p ((insert y Z).erase (bvictim t' (insert y Z))) =
            insert y (insert p (Z.erase (bvictim t' (insert y Z)))) := by
          rw [Finset.erase_insert_of_ne hz2y.symm, Finset.Insert.comm]
        rw [hrw1, hrw2]
        by_cases hz12 : bvictim t' (insert x Z) = bvictim t' (insert y Z)
        · rw [← hz12]
          have hxV : x ∉ insert p (Z.erase (bvictim t' (insert x Z))) := by
            intro hc
            rcases Finset.mem_insert.mp hc with hc | hc
            · exact hpx hc.symm
            · exact hx (Finset.mem_of_mem_erase hc)
          have hyV : y ∉ insert p (Z.erase (bvictim t' (insert x Z))) := by
            intro hc
            rcases Finset.mem_insert.mp hc with hc | hc
            · exact hpy hc.symm
            · exact hy (Finset.mem_of_mem_erase hc)
          have hcd : (insert x (insert p (Z.erase (bvictim t' (insert x Z))))).card ≤ F := by
            have h2 : 1 ≤ Z.card := Finset.card_pos.mpr ⟨_, hf1⟩
            rw [Finset.card_insert_of_not_mem hxV,
              Finset.card_insert_of_not_mem (fun hc => hpZ (Finset.mem_of_mem_erase hc)),
              Finset.card_erase_of_mem hf1]
            omega
          have h1 := ihDom _ x y hxV hyV hcd hlet'
          omega
        · have hz2mem : bvictim t' (insert y Z) ∈
              Z.erase (bvictim t' (insert x Z)) :=
            Finset.mem_erase.mpr ⟨fun hc => hz12 hc.symm, hf2⟩
          have hstep1 : insert p (Z.erase (bvictim t' (insert x Z))) =
              insert (bvictim t' (insert y Z))
                (insert p ((Z.erase (bvictim t' (insert x Z))).erase
                  (bvictim t' (insert y Z)))) := by
            conv =>
              lhs
              rw [← Finset.insert_erase hz2mem]
            rw [Finset.Insert.comm]
          have hU1 : insert x (insert p (Z.erase (bvictim t' (insert x Z)))) =
              insert (bvictim t' (insert y Z))
                (insert x (insert p ((Z.erase (bvictim t' (insert x Z))).erase
                  (bvictim t' (insert y Z))))) := by
            rw [hstep1, Finset.Insert.comm x]
          have hmid : insert (bvictim t' (insert x Z))
              (insert x (insert p ((Z.erase (bvictim t' (insert x Z))).erase
                (bvictim t' (insert y Z))))) =
              insert x (insert p (Z.erase (bvictim t' (insert y Z)))) := by
            rw [Finset.Insert.comm _ x, Finset.Insert.comm _ p]
            congr 1
            congr 1
            rw [Finset.erase_right_comm, Finset.insert_erase
              (Finset.mem_erase.mpr ⟨hz12, hf1⟩)]
          have hz2U : bvictim t' (insert y Z) ∉
              insert x (insert p ((Z.erase (bvictim t' (insert x Z))).erase
                (bvictim t' (insert y Z)))) := by
            intro hc
            rcases Finset.mem_insert.mp hc with hc | hc
            · exact hx (hc ▸ hf2)
            rcases Finset.mem_insert.mp hc with hc | hc
            · exact hz2p hc
            · exact absurd rfl (Finset.mem_erase.mp hc).1
          have hz1U : bvictim t' (insert x Z) ∉
              insert x (insert p ((Z.erase (bvictim t' (insert x Z))).erase
                (bvictim t' (insert y Z)))) := by
            intro hc
            rcases Finset.mem_insert.mp hc with hc | hc
            · exact hz1x hc
            rcases Finset.mem_insert.mp hc with hc | hc
            · exact hz1p hc
            · exact absurd rfl (Finset.mem_erase.mp (Finset.mem_of_mem_erase hc)).1
          have hcdU : (insert (bvictim t' (insert y Z))
              (insert x (insert p ((Z.erase (bvictim t' (insert x Z))).erase
                (bvictim t' (insert y Z)))))).card ≤ F := by
            rw [← hU1]
            have h2 : 1 ≤ Z.card := Finset.card_pos.mpr ⟨_, hf1⟩
            have hxV : x ∉ insert p (Z.erase (bvictim t' (insert x Z))) := by
              intro hc
              rcases Finset.mem_insert.mp hc with hc | hc
              · exact hpx hc.symm
              · exact hx (Finset.mem_of_mem_erase hc)
            rw [Finset.card_insert_of_not_mem hxV,
              Finset.card_insert_of_not_mem (fun hc => hpZ (Finset.mem_of_mem_erase hc)),
              Finset.card_erase_of_mem hf1]
            omega
          have hkey : nextInf t' (bvictim t' (insert y Z)) ≤
              nextInf t' (bvictim t' (insert x Z)) :=
            bvictim_max t' (insert x Z) _ (Finset.mem_insert_of_mem hf2)
          have hchain1 := ihDom _ (bvictim t' (insert y Z)) (bvictim t' (insert x Z))
            hz2U hz1U hcdU hkey
          rw [← hU1, hmid] at hchain1
          have hxV2 : x ∉ insert p (Z.erase (bvictim t' (insert y Z))) := by
            intro hc
            rcases Finset.mem_insert.mp hc with hc | hc
            · exact hpx hc.symm
            · exact hx (Finset.mem_of_mem_erase hc)
          have hyV2 : y ∉ insert p (Z.erase (bvictim t' (insert y Z))) := by
            intro hc
            rcases Finset.mem_insert.mp hc with hc | hc
            · exact hpy hc.symm
            · exact hy (Finset.mem_of_mem_erase hc)
          have hcdV2 : (insert x (insert p (Z.erase (bvictim t' (insert y Z))))).card ≤ F := by
            have h2 : 1 ≤ Z.card := Finset.card_pos.mpr ⟨_, hf2⟩
            rw [Finset.card_insert_of_not_mem hxV2,
              Finset.card_insert_of_not_mem (fun hc => hpZ (Finset.mem_of_mem_erase hc)),
              Finset.card_erase_of_mem hf2]
            omega
          have hchain2 := ihDom _ x y hxV2 hyV2 hcdV2 hlet'
          omega

/-- Monotonicity, the one-page bound, single-exchange stability and the
dominance exchange for the canonical Belady cost, proved jointly by
induction on the trace. -/
lemma bcost_joint (F : Nat) : ∀ (t : List Page),
    (∀ C C' : Finset Page, C ⊆ C' → C'.card ≤ F → bcost F t C' ≤ bcost F t C) ∧
    (∀ (C : Finset Page) (y : Page), y ∉ C → C.card < F →
      bcost F t C ≤ bcost F t (insert y C) + 1) ∧
    (∀ (Z : Finset Page) (a b : Page), a ∉ Z → b ∉ Z → (insert a Z).card ≤ F →
      bcost F t (insert a Z) ≤ bcost F t (insert b Z) + 1) ∧
    (∀ (Z : Finset Page) (x y : Page), x ∉ Z → y ∉ Z → (insert x Z).card ≤ F →
      nextInf t x ≤ nextInf t y →
      bcost F t (insert x Z) ≤ bcost F t (insert y Z)) := by
  intro t
  induction t with
  | nil =>
    refine ⟨?_, ?_, ?_, ?_⟩ <;> intros <;> simp [bcost_nil]
  | cons p t' ih =>
    obtain ⟨ihMono, ihAdd, ihDiff, ihDom⟩ := ih
    exact ⟨bcost_mono_step F p t' ihMono ihDom,
           bcost_add_step F p t' ihAdd ihDiff,
           bcost_diff_step F p t' ihMono ihAdd ihDiff ihDom,
           bcost_dom_step F p t' ihAdd ihDiff ihDom⟩

/-- A cache containing another never faults more under Belady. -/
lemma bcost_mono (F : Nat) (t : List Page) (C C' : Finset Page) (h : C ⊆ C')
    (hc : C'.card ≤ F) : bcost F t C' ≤ bcost F t C :=
  (bcost_joint F t).1 C C' h hc

/-- Exchanging one resident page for one with a later (or equal) next use
never helps Belady. -/
lemma bcost_dom (F : Nat) (t : List Page) (Z : Finset Page) (x y : Page)
    (hx : x ∉ Z) (hy : y ∉ Z) (hc : (insert x Z).card ≤ F)
    (hk : nextInf t x ≤ nextInf t y) :
    bcost F t (insert x Z) ≤ bcost F t (insert y Z) :=
  (bcost_joint F t).2.2.2 Z x y hx hy hc hk

/-- The canonical Belady cost lower-bounds every demand-paging execution:
the heart of the optimality argument. -/
lemma bcost_le_of_reach (F : Nat) :
    ∀ {t : List Page} {C : Finset Page} {n : Nat}, Reach F t C n → C.card ≤ F →
      bcost F t C ≤ n := by
  intro t C n h
  induction h with
  | nil C => intro _; simp [bcost_nil]
  | hit hp _ ih =>
    intro hcard
    rw [bcost_cons, if_pos hp]
    exact ih hcard
  | grow hp hlt _ ih =>
    intro hcard
    rw [bcost_cons, if_neg hp, if_pos hlt]
    rename_i p t C n _
    have h1 := ih (by rw [Finset.card_insert_of_not_mem hp]; omega)
    omega
  | evict q hp hq _ ih =>
    intro hcard
    rename_i p t C n _
    have hC1 : 1 ≤ C.card := Finset.card_pos.mpr ⟨q, hq⟩
    have hcr : (insert p (C.erase q)).card ≤ F := by
      have h1 := Finset.card_insert_le p (C.erase q)
      rw [Finset.card_erase_of_mem hq] at h1
      omega
    have h2 := ih hcr
    rw [bcost_cons, if_neg hp]
    by_cases hlt : C.card < F
    · rw [if_pos hlt]
      have hsub : insert p (C.erase q) ⊆ insert p C :=
        Finset.insert_subset_insert p (Finset.erase_subset q C)
      have h1 := bcost_mono F t _ _ hsub
        (by rw [Finset.card_insert_of_not_mem hp]; omega)
      omega
    · rw [if_neg hlt]
      have hCF : C.card = F := le_antisymm hcard (not_lt.mp hlt)
      by_cases hfq : bvictim t C = q
      · rw [hfq]
        omega
      · have hne : C.Nonempty := ⟨q, hq⟩
        have hfC : bvictim t C ∈ C := bvictim_mem t C hne
        have hqef : q ∈ C.erase (bvictim t C) :=
          Finset.mem_erase.mpr ⟨fun hc => hfq hc.symm, hq⟩
        have hfeq : bvictim t C ∈ C.erase q :=
          Finset.mem_erase.mpr ⟨hfq, hfC⟩
        have hpq : p ≠ q := fun hc => hp (hc ▸ hq)
        have hpf : p ≠ bvictim t C := fun hc => hp (hc ▸ hfC)
        have hCb : insert p (C.erase (bvictim t C)) =
            insert q (insert p ((C.erase (bvictim t C)).erase q)) := by
          conv =>
            lhs
            rw [← Finset.insert_erase hqef]
          rw [Finset.Insert.comm]
        have hCr : insert p (C.erase q) =
            insert (bvictim t C) (insert p ((C.erase (bvictim t C)).erase q)) := by
          rw [Finset.erase_right_comm]
          conv =>
            lhs
            rw [← Finset.insert_erase hfeq]
          rw [Finset.Insert.comm]
        have hqX : q ∉ insert p ((C.erase (bvictim t C)).erase q) := by
          intro hc
          rcases Finset.mem_insert.mp hc with hc | hc
          · exact hpq hc.symm
          · exact absurd rfl (Finset.mem_erase.mp hc).1
        have hfX : bvictim t C ∉ insert p ((C.erase (bvictim t C)).erase q) := by
          intro hc
          rcases Finset.mem_insert.mp hc with hc | hc
          · exact hpf hc.symm
          · exact absurd rfl (Finset.mem_erase.mp (Finset.mem_of_mem_erase hc)).1
        have hcd : (insert q (insert p ((C.erase (bvictim t C)).erase q))).card ≤ F := by
          rw [← hCb]
          have h1 := Finset.card_insert_le p (C.erase (bvictim t C))
          rw [Finset.card_erase_of_mem hfC] at h1
          omega
        have h3 := bcost_dom F t _ q (bvictim t C) hqX hfX hcd
          (bvictim_max t C q hq)
        rw [← hCb, ← hCr] at h3
        omega

/-- The canonical Belady execution at capacity `F` is a valid
demand-paging execution at any capacity `F' ≥ F`. -/
lemma reach_of_bcost (F F' : Nat) (hFF : F ≤ F') (hF : 1 ≤ F) :
    ∀ (t : List Page) (C : Finset Page), C.card ≤ F →
      Reach F' t C (bcost F t C) := by
  intro t
  induction t with
  | nil => intro C _; exact Reach.nil C
  | cons p t' ih =>
    intro C hcard
    by_cases hp : p ∈ C
    · rw [bcost_cons, if_pos hp]
      exact Reach.hit hp (ih C hcard)
    · rw [bcost_cons, if_neg hp]
      by_cases hlt : C.card < F
      · rw [if_pos hlt]
        exact Reach.grow hp (lt_of_lt_of_le hlt hFF)
          (ih _ (by rw [Finset.card_insert_of_not_mem hp]; omega))
      · rw [if_neg hlt]
        have hCF : C.card = F := le_antisymm hcard (not_lt.mp hlt)
        have hne : C.Nonempty := Finset.card_pos.mp (by omega)
        have hv := bvictim_mem t' C hne
        refine Reach.evict (bvictim t' C) hp hv (ih _ ?_)
        have h1 := Finset.card_insert_le p (C.erase (bvictim t' C))
        rw [Finset.card_erase_of_mem hv] at h1
        omega

/-- Erasing from a duplicate-free list matches `Finset.erase`. -/
lemma toFinset_erase_of_nodup (l : List Page) (a : Page) (h : l.Nodup) :
    (l.erase a).toFinset = l.toFinset.erase a := by
  ext x
  simp only [List.mem_toFinset, Finset.mem_erase, List.Nodup.mem_erase_iff h]

/-- A frame list with an empty slot holds fewer pages than slots. -/
lemma framePages_length_lt : ∀ (frames : List (Option ClockFrame)),
    none ∈ frames → (framePages frames).length < frames.length := by
  intro frames
  induction frames with
  | nil => intro hn; simp at hn
  | cons o t ih =>
    intro hn
    cases o with
    | none =>
      have h1 : framePages (none :: t) = framePages t := rfl
      have h2 := List.length_filterMap_le
        (fun o : Option ClockFrame => o.map ClockFrame.pageID) t
      rw [h1]
      have h3 : (framePages t).length ≤ t.length := h2
      simp only [List.length_cons]
      omega
    | some g =>
      have hn' : none ∈ t := by
        rcases List.mem_cons.mp hn with hc | hc
        · exact absurd hc.symm (by simp)
        · exact hc
      have h1 : framePages (some g :: t) = g.pageID :: framePages t := rfl
      rw [h1]
      simp only [List.length_cons]
      exact Nat.succ_lt_succ (ih hn')

/-- Replacing the page of an occupied slot swaps exactly that page in the
resident list (up to position), provided no page is resident twice. -/
lemma framePages_set_some : ∀ (frames : List (Option ClockFrame)) (v : Nat)
    (g fr : ClockFrame), frames.get? v = some (some g) →
    (framePages frames).Nodup →
    (framePages (frames.set v (some fr))).Perm
      (fr.pageID :: (framePages frames).erase g.pageID) := by
  intro frames
  induction frames with
  | nil => intro v g fr h _; simp at h
  | cons o t ih =>
    intro v g fr h hnodup
    cases v with
    | zero =>
      obtain rfl : some g = o := by simpa using h.symm
      show (framePages (some fr :: t)).Perm _
      have h1 : framePages (some fr :: t) = fr.pageID :: framePages t := rfl
      have h2 : framePages (some g :: t) = g.pageID :: framePages t := rfl
      rw [h1, h2, List.erase_cons_head]
    | succ v =>
      simp only [List.get?_cons_succ] at h
      cases o with
      | none =>
        have h1 : framePages (none :: t.set v (some fr)) =
            framePages (t.set v (some fr)) := rfl
        have h2 : framePages ((none : Option ClockFrame) :: t) = framePages t := rfl
        rw [List.set_cons_succ, h1, h2] at *
        exact ih v g fr h hnodup
      | some h' =>
        have h1 : framePages (some h' :: t.set v (some fr)) =
            h'.pageID :: framePages (t.set v (some fr)) := rfl
        have h2 : framePages (some h' :: t) = h'.pageID :: framePages t := rfl
        rw [h2] at hnodup
        have hgt : g.pageID ∈ framePages t :=
          List.mem_filterMap.mpr ⟨some g, mem_of_get?_eq_some h, rfl⟩
        have hne : h'.pageID ≠ g.pageID := by
          intro hc
          exact (List.nodup_cons.mp hnodup).1 (hc ▸ hgt)
        rw [List.set_cons_succ, h1, h2]
        rw [List.erase_cons_tail (by simpa using hne)]
        exact ((ih v g fr h (List.nodup_cons.mp hnodup).2).cons h'.pageID).trans
          (List.Perm.swap _ _ _)

/-- One clock step, described on the resident set: a hit leaves it alone, a
fault adds the page, evicting a resident page when no slot was free. -/
lemma clockStep_reach (F : Nat) (st : ClockState) (p : Page) (st' : ClockState)
    (hstep : clockStep F st p = some st')
    (hlen : st.frames.length = F) (hnodup : (framePages st.frames).Nodup) :
    (framePages st'.frames).Nodup ∧
    ((st'.faults = st.faults ∧ p ∈ (framePages st.frames).toFinset ∧
        (framePages st'.frames).toFinset = (framePages st.frames).toFinset) ∨
      (st'.faults = st.faults + 1 ∧ p ∉ (framePages st.frames).toFinset ∧
        (((framePages st.frames).toFinset.card < F ∧
          (framePages st'.frames).toFinset = insert p (framePages st.frames).toFinset) ∨
         (∃ q ∈ (framePages st.frames).toFinset,
          (framePages st'.frames).toFinset =
            insert p ((framePages st.frames).toFinset.erase q))))) := by
  unfold clockStep at hstep
  cases hlk : lookupFrame st.frames p with
  | some k =>
    simp only [hlk] at hstep
    obtain ⟨fr, hget, hfrp⟩ := lookupFrame_eq_some st.frames p k hlk
    rw [hget] at hstep
    obtain rfl : _ = st' := by injection hstep
    have hpages : pagesOf (st.frames.set k (some { fr with referenced := true })) =
        pagesOf st.frames := by
      unfold pagesOf
      rw [List.map_set]
      apply set_of_get_eq
      rw [List.get?_eq_getElem?, List.getElem?_map]
      rcases List.get?_eq_some.mp hget with ⟨hi, hval⟩
      rw [List.get_eq_getElem] at hval
      rw [List.getElem?_eq_getElem hi, hval]
      rfl
    have hfp : framePages (st.frames.set k (some { fr with referenced := true })) =
        framePages st.frames := framePages_congr hpages
    refine ⟨by rw [hfp]; exact hnodup, Or.inl ⟨rfl, ?_, by rw [hfp]⟩⟩
    rw [List.mem_toFinset, ← hfrp]
    exact List.mem_filterMap.mpr ⟨some fr, mem_of_get?_eq_some hget, rfl⟩
  | none =>
    have hpnot : p ∉ framePages st.frames := (lookupFrame_eq_none_iff _ _).mp hlk
    have hpS : p ∉ (framePages st.frames).toFinset :=
      fun hc => hpnot (List.mem_toFinset.mp hc)
    simp only [hlk] at hstep
    cases hfind : st.frames.findIdx? (fun o => o.isNone) with
    | some e =>
      simp only [hfind] at hstep
      obtain rfl : _ = st' := by injection hstep
      obtain ⟨a, hae, haN⟩ := findIdx?_some_spec _ st.frames e hfind
      obtain rfl : a = none := by
        cases a with
        | none => rfl
        | some fr => simp at haN
      have hperm := framePages_set_none st.frames e ⟨p, true, 1⟩ hae
      have hcardlt : (framePages st.frames).toFinset.card < F := by
        have hc1 : (framePages st.frames).toFinset.card = (framePages st.frames).length :=
          List.toFinset_card_of_nodup hnodup
        have hc2 := framePages_length_lt st.frames (mem_of_get?_eq_some hae)
        omega
      refine ⟨?_, Or.inr ⟨rfl, hpS, Or.inl ⟨hcardlt, ?_⟩⟩⟩
      · rw [hperm.nodup_iff]
        exact List.Nodup.cons hpnot hnodup
      · ext x
        simp [hperm.mem_iff]
    | none =>
      simp only [hfind] at hstep
      cases hscan : clockScan F (2 * F) st.frames st.pointer with
      | none => simp only [hscan] at hstep; exact Option.noConfusion hstep
      | some vf =>
        obtain ⟨v, frames2⟩ := vf
        simp only [hscan] at hstep
        obtain rfl : _ = st' := by injection hstep
        obtain ⟨hpages2, hv, fr2, hget2, _⟩ :=
          clockScan_spec F (2 * F) st.frames st.pointer v frames2 hscan
        have hfp2 : framePages frames2 = framePages st.frames :=
          framePages_congr hpages2
        have hnodup2 : (framePages frames2).Nodup := by rw [hfp2]; exact hnodup
        have hperm := framePages_set_some frames2 v fr2 ⟨p, true, 1⟩ hget2 hnodup2
        have hqmem : fr2.pageID ∈ (framePages st.frames).toFinset := by
          rw [List.mem_toFinset, ← hfp2]
          exact List.mem_filterMap.mpr ⟨some fr2, mem_of_get?_eq_some hget2, rfl⟩
        refine ⟨?_, Or.inr ⟨rfl, hpS, Or.inr ⟨fr2.pageID, hqmem, ?_⟩⟩⟩
        · rw [hperm.nodup_iff]
          refine List.Nodup.cons ?_ (List.Nodup.erase _ hnodup2)
          intro hc
          rw [List.Nodup.mem_erase_iff hnodup2, hfp2] at hc
          exact hpnot hc.2
        · have h1 : (framePages (frames2.set v (some ⟨p, true, 1⟩))).toFinset =
              ((⟨p, true, 1⟩ : ClockFrame).pageID ::
                (framePages frames2).erase fr2.pageID).toFinset := by
            ext x
            simp [hperm.mem_iff]
          rw [h1, List.toFinset_cons]
          show insert p ((framePages frames2).erase fr2.pageID).toFinset = _
          rw [toFinset_erase_of_nodup _ _ hnodup2, hfp2]

/-- The clock replay is a demand-paging execution on resident sets. -/
lemma clockRun_reach (F : Nat) : ∀ (acc : List Page) (st st' : ClockState),
    clockRun F acc st = some st' →
    st.frames.length = F → st.pointer < F → (framePages st.frames).Nodup →
    ∃ n, st'.faults = st.faults + n ∧
      Reach F acc (framePages st.frames).toFinset n := by
  intro acc
  induction acc with
  | nil =>
    intro st st' h _ _ _
    obtain rfl : st = st' := by
      unfold clockRun at h
      injection h
    exact ⟨0, rfl, Reach.nil _⟩
  | cons p rest ih =>
    intro st st' h hlen hptr hnodup
    unfold clockRun at h
    cases hstep : clockStep F st p with
    | none => rw [hstep] at h; simp at h
    | some st1 =>
      rw [hstep] at h
      obtain ⟨hlen1, hptr1⟩ := clockStep_shape F st p st1 hlen hptr hstep
      obtain ⟨hnodup1, hcase⟩ := clockStep_reach F st p st1 hstep hlen hnodup
      obtain ⟨n, hfn, hreach⟩ := ih st1 st' h hlen1 hptr1 hnodup1
      rcases hcase with ⟨hf, hpmem, hset⟩ | ⟨hf, hpnot, hgrow | ⟨q, hq, hset⟩⟩
      · rw [hset] at hreach
        exact ⟨n, by omega, Reach.hit hpmem hreach⟩
      · obtain ⟨hcard, hset⟩ := hgrow
        rw [hset] at hreach
        exact ⟨n + 1, by omega, Reach.grow hpnot hcard hreach⟩
      · rw [hset] at hreach
        exact ⟨n + 1, by omega, Reach.evict q hpnot hq hreach⟩

/-- Membership in the precomputed position list. -/
lemma mem_positionsOf (trace : List Page) (q : Page) (j : Nat) :
    j ∈ positionsOf trace q ↔ trace.get? j = some q := by
  unfold positionsOf
  rw [List.mem_filter, List.mem_range]
  constructor
  · intro ⟨_, h⟩
    exact of_decide_eq_true h
  · intro h
    refine ⟨?_, decide_eq_true h⟩
    rcases List.get?_eq_some.mp h with ⟨hlt, _⟩
    exact hlt

/-- The position list is strictly increasing. -/
lemma positionsOf_sorted (trace : List Page) (q : Page) :
    (positionsOf trace q).Pairwise (· < ·) :=
  List.Pairwise.filter _ (List.pairwise_lt_range trace.length)

/-- `find?` of the threshold predicate on a strictly increasing list
returns the least element at or above the threshold. -/
lemma find?_ge_sorted : ∀ (l : List Nat), l.Pairwise (· < ·) → ∀ (i v : Nat),
    l.find? (fun pos => decide (i ≤ pos)) = some v →
    v ∈ l ∧ i ≤ v ∧ ∀ w ∈ l, i ≤ w → v ≤ w := by
  intro l
  induction l with
  | nil => intro _ i v h; simp at h
  | cons a l ih =>
    intro hp i v h
    rw [List.find?_cons] at h
    by_cases hia : i ≤ a
    · simp only [decide_eq_true hia] at h
      obtain rfl : a = v := by injection h
      refine ⟨List.mem_cons_self _ _, hia, ?_⟩
      intro w hw _
      rcases List.mem_cons.mp hw with rfl | hw
      · exact le_refl _
      · exact le_of_lt ((List.pairwise_cons.mp hp).1 w hw)
    · have : decide (i ≤ a) = false := decide_eq_false hia
      rw [this] at h
      obtain ⟨hv, hiv, hmin⟩ := ih (List.pairwise_cons.mp hp).2 i v h
      refine ⟨List.mem_cons_of_mem _ hv, hiv, ?_⟩
      intro w hw hiw
      rcases List.mem_cons.mp hw with rfl | hw
      · exact absurd hiw hia
      · exact hmin w hw hiw

/-- The head position of a page present in the trace holds that page. -/
lemma nextInf_get? (t : List Page) (q : Page) (h : q ∈ t) :
    t.get? (nextInf t q) = some q := by
  have hlt := (nextInf_lt_length_iff t q).mpr h
  exact List.get?_eq_some.mpr ⟨hlt, nextInf_getElem t q hlt⟩

/-- No position before the head occurrence holds the page. -/
lemma nextInf_min (t : List Page) (q : Page) (k : Nat) (hk : k < nextInf t q) :
    t.get? k ≠ some q := by
  intro hc
  rcases List.get?_eq_some.mp hc with ⟨hlt, hval⟩
  have h2 := @List.not_of_lt_findIdx _ (fun x => decide (x = q)) t k hk
  rw [List.get_eq_getElem] at hval
  rw [hval] at h2
  simp at h2

/-- A page has no recorded next use after `i` exactly when it does not
occur in the trace suffix beyond `i`. -/
lemma nextUseAfter_eq_none_iff (trace : List Page) (i : Nat) (q : Page) :
    nextUseAfter (positionsOf trace q) i = none ↔ q ∉ trace.drop (i + 1) := by
  unfold nextUseAfter
  rw [List.find?_eq_none]
  constructor
  · intro h hq
    have h1 : (trace.drop (i + 1)).get? (nextInf (trace.drop (i + 1)) q) = some q :=
      nextInf_get? _ q hq
    rw [List.get?_drop] at h1
    have hmem := (mem_positionsOf trace q _).mpr h1
    have := h _ hmem
    simp at this
  · intro h w hw
    simp only [decide_eq_true_eq]
    intro hiw
    rw [mem_positionsOf] at hw
    apply h
    apply mem_of_get?_eq_some (n := w - (i + 1))
    rw [List.get?_drop]
    have heq : i + 1 + (w - (i + 1)) = w := by omega
    rw [heq]
    exact hw

/-- A recorded next use after `i` is exactly `i + 1` plus the first
occurrence in the suffix beyond `i`. -/
lemma nextUseAfter_eq_some (trace : List Page) (i : Nat) (q : Page) (v : Nat)
    (h : nextUseAfter (positionsOf trace q) i = some v) :
    q ∈ trace.drop (i + 1) ∧ v = i + 1 + nextInf (trace.drop (i + 1)) q := by
  unfold nextUseAfter at h
  obtain ⟨hvmem, hiv, hmin⟩ := find?_ge_sorted _ (positionsOf_sorted trace q) _ _ h
  rw [mem_positionsOf] at hvmem
  have hvdrop : (trace.drop (i + 1)).get? (v - (i + 1)) = some q := by
    rw [List.get?_drop]
    have heq : i + 1 + (v - (i + 1)) = v := by omega
    rw [heq]
    exact hvmem
  have hqdrop : q ∈ trace.drop (i + 1) := mem_of_get?_eq_some hvdrop
  refine ⟨hqdrop, ?_⟩
  have hj0 : trace.get? (i + 1 + nextInf (trace.drop (i + 1)) q) = some q := by
    rw [← List.get?_drop]
    exact nextInf_get? _ q hqdrop
  have hge := hmin _ ((mem_positionsOf trace q _).mpr hj0) (by omega)
  have hle : nextInf (trace.drop (i + 1)) q ≤ v - (i + 1) := by
    by_contra hlt
    push_neg at hlt
    exact nextInf_min _ q _ hlt hvdrop
  omega

/-- Updating one slot of a duplicate-free frame list with a fresh page
replaces exactly the old page, both as a set and for duplicate-freedom. -/
lemma set_toFinset_of_nodup (l : List Page) (k : Nat) (hk : k < l.length)
    (p : Page) (hnd : l.Nodup) (hp : p ∉ l) :
    (l.set k p).toFinset = insert p (l.toFinset.erase (l.get ⟨k, hk⟩)) ∧
    (l.set k p).Nodup := by
  have hdecomp : l = l.take k ++ l.get ⟨k, hk⟩ :: l.drop (k + 1) := by
    conv =>
      lhs
      rw [← set_of_get_eq l k (l.get ⟨k, hk⟩) (List.get?_eq_some.mpr ⟨hk, rfl⟩)]
    rw [List.set_eq_take_append_cons_drop, if_pos hk]
  have hset : l.set k p = l.take k ++ p :: l.drop (k + 1) := by
    rw [List.set_eq_take_append_cons_drop, if_pos hk]
  have hndd : (l.take k ++ l.get ⟨k, hk⟩ :: l.drop (k + 1)).Nodup := hdecomp ▸ hnd
  rw [List.nodup_append] at hndd
  obtain ⟨hnd1, hnd2, hdisj⟩ := hndd
  have hgtake : l.get ⟨k, hk⟩ ∉ l.take k := fun hc =>
    hdisj hc (List.mem_cons_self _ _)
  have hgdrop : l.get ⟨k, hk⟩ ∉ l.drop (k + 1) := (List.nodup_cons.mp hnd2).1
  have hptake : p ∉ l.take k := fun hc => hp (hdecomp ▸ List.mem_append_left _ hc)
  have hpdrop : p ∉ l.drop (k + 1) := fun hc =>
    hp (hdecomp ▸ List.mem_append_right _ (List.mem_cons_of_mem _ hc))
  have hmem : ∀ x : Page, x ∈ l ↔
      x ∈ l.take k ∨ x = l.get ⟨k, hk⟩ ∨ x ∈ l.drop (k + 1) := by
    intro x
    conv =>
      lhs
      rw [hdecomp]
    simp only [List.mem_append, List.mem_cons, List.get_eq_getElem]
  constructor
  · rw [hset]
    ext x
    simp only [List.toFinset_append, List.toFinset_cons, Finset.mem_insert,
      Finset.mem_union, Finset.mem_erase, List.mem_toFinset]
    rw [hmem x]
    constructor
    · rintro (hx | hx | hx)
      · refine Or.inr ⟨fun hc => hgtake (hc ▸ hx), Or.inl hx⟩
      · exact Or.inl hx
      · exact Or.inr ⟨fun hc => hgdrop (hc ▸ hx), Or.inr (Or.inr hx)⟩
    · rintro (hx | ⟨hxg, hx | hx | hx⟩)
      · exact Or.inr (Or.inl hx)
      · exact Or.inl hx
      · exact absurd hx hxg
      · exact Or.inr (Or.inr hx)
  · rw [hset, List.nodup_append]
    refine ⟨hnd1, List.Nodup.cons hpdrop (List.nodup_cons.mp hnd2).2, ?_⟩
    intro x hx1 hx2
    rcases List.mem_cons.mp hx2 with rfl | hx2
    · exact hptake hx1
    · exact hdisj hx1 (List.mem_cons_of_mem _ hx2)

/-- The page picked by the victim scan has the latest next use among the
resident pages, measured on the trace suffix beyond the current access. -/
lemma opt_victim_nextInf_max (trace : List Page) (i : Nat) (frames : List Page)
    (hne : frames ≠ []) :
    ∃ hj : optVictimIdx (fun q => nextUseAfter (positionsOf trace q) i) frames <
        frames.length,
      ∀ q ∈ frames,
        nextInf (trace.drop (i + 1)) q ≤ nextInf (trace.drop (i + 1))
          (frames.get ⟨optVictimIdx (fun q => nextUseAfter (positionsOf trace q) i)
            frames, hj⟩) := by
  obtain ⟨hj, hchar⟩ :=
    optVictimIdx_char (fun q => nextUseAfter (positionsOf trace q) i) frames hne
  refine ⟨hj, ?_⟩
  intro q hq
  rcases hchar with ⟨hnone, _⟩ | ⟨m, hm, hallle, _⟩
  · have hnot : frames.get ⟨_, hj⟩ ∉ trace.drop (i + 1) :=
      (nextUseAfter_eq_none_iff trace i _).mp hnone
    rw [(nextInf_eq_length_iff _ _).mpr hnot]
    exact nextInf_le_length _ q
  · obtain ⟨_, hgval⟩ := nextUseAfter_eq_some trace i _ m hm
    rcases List.mem_iff_get.mp hq with ⟨⟨j, hjlt⟩, rfl⟩
    obtain ⟨n, hn, hnm⟩ := hallle j hjlt
    obtain ⟨_, hqval⟩ := nextUseAfter_eq_some trace i _ n hn
    omega

/-- Evicting any page of maximal next use costs the same as evicting the
canonical Belady victim. -/
lemma bcost_exchange (F : Nat) (t : List Page) (C : Finset Page) (p g : Page)
    (hg : g ∈ C) (hp : p ∉ C) (hC : C.card = F)
    (hmax : ∀ q ∈ C, nextInf t q ≤ nextInf t g) :
    bcost F t (insert p (C.erase g)) =
      bcost F t (insert p (C.erase (bvictim t C))) := by
  by_cases hgb : g = bvictim t C
  · rw [hgb]
  · have hb : bvictim t C ∈ C := bvictim_mem t C ⟨g, hg⟩
    have heqn : nextInf t g = nextInf t (bvictim t C) :=
      le_antisymm (bvictim_max t C g hg) (hmax _ hb)
    have hbeg : bvictim t C ∈ C.erase g :=
      Finset.mem_erase.mpr ⟨fun h => hgb h.symm, hb⟩
    have hgeb : g ∈ C.erase (bvictim t C) := Finset.mem_erase.mpr ⟨hgb, hg⟩
    have hpb : ¬ bvictim t C = p := fun h => hp (h ▸ hb)
    have hpg : ¬ g = p := fun h => hp (h ▸ hg)
    have hinsb : insert (bvictim t C) (insert p ((C.erase g).erase (bvictim t C))) =
        insert p (C.erase g) := by
      rw [Finset.Insert.comm, Finset.insert_erase hbeg]
    have hinsg : insert g (insert p ((C.erase g).erase (bvictim t C))) =
        insert p (C.erase (bvictim t C)) := by
      rw [Finset.Insert.comm, Finset.erase_right_comm, Finset.insert_erase hgeb]
    have hbZ : bvictim t C ∉ insert p ((C.erase g).erase (bvictim t C)) := by
      simp [Finset.mem_insert, Finset.mem_erase, hpb]
    have hgZ : g ∉ insert p ((C.erase g).erase (bvictim t C)) := by
      simp [Finset.mem_insert, Finset.mem_erase, hpg]
    have hcC : 1 ≤ C.card := Finset.card_pos.mpr ⟨g, hg⟩
    have hcb : (insert (bvictim t C)
        (insert p ((C.erase g).erase (bvictim t C)))).card ≤ F := by
      rw [hinsb]
      have h1 := Finset.card_insert_le p (C.erase g)
      have h2 : (C.erase g).card = C.card - 1 := Finset.card_erase_of_mem hg
      omega
    have hcg : (insert g (insert p ((C.erase g).erase (bvictim t C)))).card ≤ F := by
      rw [hinsg]
      have h1 := Finset.card_insert_le p (C.erase (bvictim t C))
      have h2 : (C.erase (bvictim t C)).card = C.card - 1 :=
        Finset.card_erase_of_mem hb
      omega
    have d1 := bcost_dom F t (insert p ((C.erase g).erase (bvictim t C)))
      (bvictim t C) g hbZ hgZ hcb heqn.ge
    have d2 := bcost_dom F t (insert p ((C.erase g).erase (bvictim t C)))
      g (bvictim t C) hgZ hbZ hcg heqn.le
    rw [← hinsb, ← hinsg]
    exact le_antisymm d1 d2

/-- Along the replay, the faithful `OptimalAlgorithm` fold accumulates
exactly the canonical Belady cost of the remaining suffix. -/
lemma optLoop_eq_bcost (trace : List Page) (F : Nat) (hF : 1 ≤ F) :
    ∀ (rest : List Page) (i : Nat) (st : OptState),
      rest = trace.drop i →
      st.frames.Nodup → st.frames.length ≤ F →
      (optLoop trace F (List.enumFrom i rest) st).faults =
        st.faults + bcost F rest st.frames.toFinset := by
  intro rest
  induction rest with
  | nil =>
    intro i st _ _ _
    simp [optLoop, List.enumFrom, bcost_nil]
  | cons p t' ih =>
    intro i st hdrop hnd hlen
    have ht' : t' = trace.drop (i + 1) := by
      have h := congrArg (List.drop 1) hdrop
      rw [List.drop_drop] at h
      simpa [Nat.add_comm] using h
    simp only [List.enumFrom, optLoop]
    by_cases hp : p ∈ st.frames
    · have hstep : optStep trace F st i p = st := by simp [optStep, hp]
      rw [hstep, bcost_cons, if_pos (List.mem_toFinset.mpr hp)]
      exact ih (i + 1) st ht' hnd hlen
    · have hpC : p ∉ st.frames.toFinset := fun hc => hp (List.mem_toFinset.mp hc)
      by_cases hlt : st.frames.length < F
      · have hstep : optStep trace F st i p =
            OptState.mk (st.frames ++ [p]) (st.faults + 1)
              (bumpLoad st.loads p) st.evicts := by
          simp [optStep, hp, hlt]
        have hnd2 : (st.frames ++ [p]).Nodup := by
          rw [List.nodup_append]
          exact ⟨hnd, List.nodup_singleton p, by simpa using hp⟩
        have hcard : st.frames.toFinset.card < F := by
          rw [List.toFinset_card_of_nodup hnd]
          exact hlt
        have htf : (st.frames ++ [p]).toFinset = insert p st.frames.toFinset := by
          ext x
          simp [or_comm]
        have hrec := ih (i + 1)
          (OptState.mk (st.frames ++ [p]) (st.faults + 1)
            (bumpLoad st.loads p) st.evicts)
          ht' hnd2 (by simp; omega)
        rw [hstep, bcost_cons, if_neg hpC, if_pos hcard, hrec]
        simp only [htf]
        omega
      · have hlenF : st.frames.length = F := le_antisymm hlen (not_lt.mp hlt)
        have hcard : st.frames.toFinset.card = F := by
          rw [List.toFinset_card_of_nodup hnd]
          exact hlenF
        have hne : st.frames ≠ [] := by
          intro hc
          rw [hc] at hlenF
          simp at hlenF
          omega
        obtain ⟨hj, hmax⟩ := opt_victim_nextInf_max trace i st.frames hne
        set k := optVictimIdx (fun q => nextUseAfter (positionsOf trace q) i)
          st.frames with hk
        have hstep : optStep trace F st i p =
            OptState.mk (st.frames.set k p) (st.faults + 1)
              (bumpLoad st.loads p) (st.evicts + 1) := by
          simp [optStep, hp, hlt, hk]
        obtain ⟨htf, hnd2⟩ := set_toFinset_of_nodup st.frames k hj p hnd hp
        have hgC : st.frames.get ⟨k, hj⟩ ∈ st.frames.toFinset :=
          List.mem_toFinset.mpr (List.get_mem _ _ _)
        have hexch := bcost_exchange F t' st.frames.toFinset p
          (st.frames.get ⟨k, hj⟩) hgC hpC hcard
          (fun q hq => by rw [ht']; exact hmax q (List.mem_toFinset.mp hq))
        have hrec := ih (i + 1)
          (OptState.mk (st.frames.set k p) (st.faults + 1)
            (bumpLoad st.loads p) (st.evicts + 1)) ht' hnd2
          (by rw [List.length_set]; exact hlen)
        rw [hstep, bcost_cons, if_neg hpC,
          if_neg (by rw [hcard]; exact lt_irrefl F), hrec]
        simp only [htf, hexch]
        omega


/-- The faithful `OptimalAlgorithm` fault count is the canonical Belady
cost of the whole trace from an empty cache. -/
lemma optFaults_eq_bcost (trace : List Page) (F : Nat) (hF : 1 ≤ F) :
    optFaults trace F = bcost F trace ∅ := by
  have h := optLoop_eq_bcost trace F hF trace 0 optInit
    (List.drop_zero trace).symm List.nodup_nil (Nat.zero_le F)
  unfold optFaults optimalAlgorithm
  simpa [optInit] using h

/-- C1: on every non-empty trace and frame capacity at least 1, the fault
count returned by `OptimalAlgorithm` is at most the fault count returned by
`ClockAlgorithm` on the same trace and capacity. -/
theorem opt_faults_le_clock_faults (trace : List Page) (F : Nat)
    (hne : trace ≠ []) (hF : 1 ≤ F) :
    optFaults trace F ≤ clockFaults trace F := by
  obtain ⟨stc, hstc⟩ := clockAlgorithm_total trace F hF
  have hfin : clockFaults trace F = stc.faults := by
    unfold clockFaults
    rw [hstc]
    rfl
  obtain ⟨n, hfn, hreach⟩ := clockRun_reach F trace (clockInit F) stc hstc
    (by simp [clockInit]) (by simpa [clockInit] using hF)
    (by rw [show (clockInit F).frames = List.replicate F none from rfl,
          framePages_replicate_none]
        exact List.nodup_nil)
  have hinit : (framePages (clockInit F).frames).toFinset = (∅ : Finset Page) := by
    rw [show (clockInit F).frames = List.replicate F none from rfl,
      framePages_replicate_none]
    rfl
  rw [hinit] at hreach
  have hb := bcost_le_of_reach F hreach (by simp)
  rw [optFaults_eq_bcost trace F hF, hfin]
  have hz : (clockInit F).faults = 0 := rfl
  omega

/-- Witness for C1 at a concrete trace and capacity. -/
theorem opt_faults_le_clock_faults_witness :
    (["A", "B", "C", "A"] : List Page) ≠ [] ∧ 1 ≤ 2 ∧
      optFaults ["A", "B", "C", "A"] 2 ≤ clockFaults ["A", "B", "C", "A"] 2 :=
  ⟨by decide, by decide,
    opt_faults_le_clock_faults ["A", "B", "C", "A"] 2 (by decide) (by decide)⟩

/-- C4 (amended): for `OptimalAlgorithm` the fault count is monotonically
non-increasing in the frame capacity; for `ClockAlgorithm` the claim fails
(see the Belady-anomaly counterexample). -/
theorem opt_faults_monotone (trace : List Page) (F F' : Nat) (hF : 1 ≤ F)
    (hFF : F ≤ F') : optFaults trace F' ≤ optFaults trace F := by
  have hF' : 1 ≤ F' := le_trans hF hFF
  rw [optFaults_eq_bcost trace F hF, optFaults_eq_bcost trace F' hF']
  exact bcost_le_of_reach F' (reach_of_bcost F F' hFF hF trace ∅ (by simp)) (by simp)

/-- Witness for the amended C4 monotonicity at a concrete instance. -/
theorem opt_faults_monotone_witness :
    1 ≤ 2 ∧ 2 ≤ 3 ∧
      optFaults ["A", "B", "C", "A", "D", "B"] 3 ≤
        optFaults ["A", "B", "C", "A", "D", "B"] 2 :=
  ⟨by decide, by decide,
    opt_faults_monotone ["A", "B", "C", "A", "D", "B"] 2 3 (by decide) (by decide)⟩


/-- Clearing the bit at a slot leaves that slot unreferenced. -/
lemma refAt_clearedAt_self (frames : List (Option ClockFrame)) (ptr : Nat) :
    refAt (clearedAt frames ptr) ptr = false := by
  unfold clearedAt
  cases hget : frames.get? ptr with
  | none =>
    unfold refAt
    rw [hget]
  | some o =>
    cases o with
    | none =>
      unfold refAt
      rw [hget]
    | some fr =>
      unfold refAt
      have hlt : ptr < frames.length := (List.get?_eq_some.mp hget).1
      rw [List.get?_eq_getElem?, List.getElem?_set_self hlt]

/-- Clearing the bit at a slot leaves every other slot unchanged. -/
lemma refAt_clearedAt_ne (frames : List (Option ClockFrame)) (ptr i : Nat)
    (h : i ≠ ptr) : refAt (clearedAt frames ptr) i = refAt frames i := by
  unfold clearedAt
  cases hget : frames.get? ptr with
  | none => rfl
  | some o =>
    cases o with
    | none => rfl
    | some fr =>
      unfold refAt
      rw [List.get?_eq_getElem?, List.get?_eq_getElem?,
        List.getElem?_set_ne (fun hc => h hc.symm)]

/-- The scan length is at most one full revolution of the hand. -/
lemma clockVictimSteps_le (frames : List (Option ClockFrame)) (ptr F : Nat) :
    clockVictimSteps frames ptr F ≤ F := by
  unfold clockVictimSteps
  have h : List.findIdx (fun k => !refAt frames ((ptr + k) % F))
      (List.range F) ≤ (List.range F).length := List.findIdx_le_length _
  simpa using h

/-- Every hand position strictly before the scan length is referenced, and
the stop position (when inside the first revolution) is unreferenced. -/
lemma clockVictimSteps_spec (frames : List (Option ClockFrame)) (ptr F : Nat) :
    (∀ k, k < clockVictimSteps frames ptr F →
      refAt frames ((ptr + k) % F) = true) ∧
    (clockVictimSteps frames ptr F < F →
      refAt frames ((ptr + clockVictimSteps frames ptr F) % F) = false) := by
  constructor
  · intro k hk
    have h2 := @List.not_of_lt_findIdx _
      (fun k => !refAt frames ((ptr + k) % F)) (List.range F) k hk
    simp only [List.getElem_range] at h2
    simpa using h2
  · intro hlt
    have hlt2 : clockVictimSteps frames ptr F < (List.range F).length := by
      simpa using hlt
    have h2 := ((List.findIdx_eq hlt2).mp rfl).1
    simp only [List.getElem_range] at h2
    simpa using h2

/-- The scan length is determined by its first-unreferenced property. -/
lemma clockVictimSteps_eq (frames : List (Option ClockFrame)) (ptr F m : Nat)
    (hm : m ≤ F)
    (hall : ∀ k, k < m → refAt frames ((ptr + k) % F) = true)
    (hstop : m < F → refAt frames ((ptr + m) % F) = false) :
    clockVictimSteps frames ptr F = m := by
  obtain ⟨s1, s2⟩ := clockVictimSteps_spec frames ptr F
  have hle := clockVictimSteps_le frames ptr F
  rcases Nat.lt_trichotomy (clockVictimSteps frames ptr F) m with hlt | heq | hgt
  · have hf := s2 (by omega)
    have ht := hall _ hlt
    rw [hf] at ht
    exact Bool.noConfusion ht
  · exact heq
  · have ht := s1 m hgt
    have hf := hstop (by omega)
    rw [hf] at ht
    exact Bool.noConfusion ht

/-- Adding less than a full revolution to the hand moves it off its spot. -/
lemma mod_shift_ne (ptr j F : Nat) (hptr : ptr < F) (hj0 : 0 < j) (hjF : j < F) :
    (ptr + j) % F ≠ ptr := by
  intro hc
  rcases Nat.lt_or_ge (ptr + j) F with hlt | hge
  · rw [Nat.mod_eq_of_lt hlt] at hc
    omega
  · rw [Nat.mod_eq_sub_mod hge, Nat.mod_eq_of_lt (by omega)] at hc
    omega

/-- One scan step shortens the remaining scan by exactly one. -/
lemma clockVictimSteps_shift (frames : List (Option ClockFrame)) (ptr F : Nat)
    (hptr : ptr < F) (href : refAt frames ptr = true) :
    clockVictimSteps frames ptr F =
      clockVictimSteps (clearedAt frames ptr) ((ptr + 1) % F) F + 1 := by
  obtain ⟨s1, s2⟩ := clockVictimSteps_spec frames ptr F
  have hle := clockVictimSteps_le frames ptr F
  have hpos : 1 ≤ clockVictimSteps frames ptr F := by
    by_contra hcon
    have h0 : clockVictimSteps frames ptr F = 0 := by omega
    have hx := s2 (by omega)
    rw [h0, Nat.add_zero, Nat.mod_eq_of_lt hptr, href] at hx
    exact Bool.noConfusion hx
  have hmod : ∀ j : Nat, ((ptr + 1) % F + j) % F = (ptr + (j + 1)) % F := by
    intro j
    rw [Nat.mod_add_mod]
    congr 1
    omega
  have hall2 : ∀ k, k < clockVictimSteps frames ptr F - 1 →
      refAt (clearedAt frames ptr) (((ptr + 1) % F + k) % F) = true := by
    intro k hk
    rw [hmod k]
    rw [refAt_clearedAt_ne frames ptr _
      (mod_shift_ne ptr (k + 1) F hptr (by omega) (by omega))]
    exact s1 (k + 1) (by omega)
  have hstop2 : clockVictimSteps frames ptr F - 1 < F →
      refAt (clearedAt frames ptr)
        (((ptr + 1) % F + (clockVictimSteps frames ptr F - 1)) % F) = false := by
    intro _
    rw [hmod _]
    have hinc : clockVictimSteps frames ptr F - 1 + 1 =
        clockVictimSteps frames ptr F := by omega
    rw [hinc]
    by_cases hcase : clockVictimSteps frames ptr F < F
    · by_cases hpeq : (ptr + clockVictimSteps frames ptr F) % F = ptr
      · rw [hpeq]
        exact refAt_clearedAt_self frames ptr
      · rw [refAt_clearedAt_ne frames ptr _ hpeq]
        exact s2 hcase
    · have hmF : clockVictimSteps frames ptr F = F := by omega
      rw [hmF, Nat.add_mod_right, Nat.mod_eq_of_lt hptr]
      exact refAt_clearedAt_self frames ptr
  have heq := clockVictimSteps_eq (clearedAt frames ptr) ((ptr + 1) % F) F
    (clockVictimSteps frames ptr F - 1) (by omega) hall2 hstop2
  omega

/-- Clearing the visited bits commutes with peeling the first visit. -/
lemma clearVisited_shift (frames : List (Option ClockFrame)) (ptr F : Nat)
    (hptr : ptr < F) :
    ∀ j, clearVisited frames ptr F (j + 1) =
      clearVisited (clearedAt frames ptr) ((ptr + 1) % F) F j := by
  intro j
  induction j with
  | zero =>
    show clearedAt frames ((ptr + 0) % F) = clearedAt frames ptr
    rw [Nat.add_zero, Nat.mod_eq_of_lt hptr]
  | succ n ihn =>
    show clearedAt (clearVisited frames ptr F (n + 1)) ((ptr + (n + 1)) % F) =
      clearedAt (clearVisited (clearedAt frames ptr) ((ptr + 1) % F) F n)
        (((ptr + 1) % F + n) % F)
    rw [ihn, Nat.mod_add_mod]
    have harith : ptr + 1 + n = ptr + (n + 1) := by omega
    rw [harith]

/-- With every frame occupied, the fuelled victim search lands exactly
where the specification says: `clockVictimSteps` hand advances, the
visited referenced bits cleared, the first unreferenced frame in scan
order returned as the victim. -/
lemma clockScan_char (F : Nat) : ∀ (fuel : Nat) (frames : List (Option ClockFrame))
    (ptr : Nat), frames.length = F → (∀ o ∈ frames, o.isSome) → ptr < F →
    clockVictimSteps frames ptr F < fuel →
    clockScan F fuel frames ptr =
      some ((ptr + clockVictimSteps frames ptr F) % F,
        clearVisited frames ptr F (clockVictimSteps frames ptr F)) := by
  intro fuel
  induction fuel with
  | zero => intro frames ptr _ _ _ hm; omega
  | succ n ih =>
    intro frames ptr hlen hfull hptr hm
    have hptrl : ptr < frames.length := by omega
    obtain ⟨fr, hfr⟩ := Option.isSome_iff_exists.mp (hfull _ (List.getElem_mem hptrl))
    have hget : frames.get? ptr = some (some fr) := by
      rw [List.get?_eq_getElem?, List.getElem?_eq_getElem hptrl, hfr]
    have hcl : clearedAt frames ptr =
        frames.set ptr (some { fr with referenced := false }) := by
      unfold clearedAt
      rw [hget]
    obtain ⟨s1, s2⟩ := clockVictimSteps_spec frames ptr F
    have hle := clockVictimSteps_le frames ptr F
    unfold clockScan
    simp only [hget]
    by_cases href : fr.referenced
    · simp only [href, if_true]
      have hrefAt : refAt frames ptr = true := by
        unfold refAt
        rw [hget]
        exact href
      have hsh := clockVictimSteps_shift frames ptr F hptr hrefAt
      rw [← hcl]
      have hlen2 : (clearedAt frames ptr).length = F := by
        rw [hcl, List.length_set]
        exact hlen
      have hfull2 : ∀ o ∈ clearedAt frames ptr, o.isSome := by
        rw [hcl]
        intro o ho
        rcases List.mem_or_eq_of_mem_set ho with hmem | rfl
        · exact hfull o hmem
        · rfl
      have hres := ih (clearedAt frames ptr) ((ptr + 1) % F) hlen2 hfull2
        (Nat.mod_lt _ (by omega)) (by omega)
      rw [hres]
      have hps : ((ptr + 1) % F + clockVictimSteps (clearedAt frames ptr)
          ((ptr + 1) % F) F) % F = (ptr + clockVictimSteps frames ptr F) % F := by
        rw [Nat.mod_add_mod]
        congr 1
        omega
      have hcv : clearVisited (clearedAt frames ptr) ((ptr + 1) % F) F
          (clockVictimSteps (clearedAt frames ptr) ((ptr + 1) % F) F) =
          clearVisited frames ptr F (clockVictimSteps frames ptr F) := by
        have h1 := clearVisited_shift frames ptr F hptr
          (clockVictimSteps (clearedAt frames ptr) ((ptr + 1) % F) F)
        rw [← h1]
        congr 1
        omega
      rw [hps, hcv]
    · simp only [href, if_false]
      have hrefAt : refAt frames ptr = false := by
        unfold refAt
        rw [hget]
        exact Bool.eq_false_iff.mpr href
      have h0 : clockVictimSteps frames ptr F = 0 :=
        clockVictimSteps_eq frames ptr F 0 (by omega) (by intro k hk; omega)
          (fun _ => by rw [Nat.add_zero, Nat.mod_eq_of_lt hptr]; exact hrefAt)
      rw [h0]
      have hp0 : (ptr + 0) % F = ptr := by
        rw [Nat.add_zero]
        exact Nat.mod_eq_of_lt hptr
      rw [hp0]
      rfl


/-- C3: on a `ClockAlgorithm` fault, either some frame is empty — the page
is installed in the lowest-indexed empty frame with the referenced bit set
and load count 1 and the hand does not move — or no frame is empty: the
scan starts at the hand, advances circularly clearing the referenced bits
it visits, evicts the first frame in scan order whose referenced bit is
false, installs the new page there with referenced bit set and load count
1, and leaves the hand one position past the victim. -/
theorem clock_fault_placement_spec (F : Nat) (st : ClockState) (p : Page)
    (hlen : st.frames.length = F) (hptr : st.pointer < F)
    (hmiss : lookupFrame st.frames p = none) :
    (∀ e, st.frames.findIdx? (fun o => o.isNone) = some e →
      e < F ∧ st.frames.get? e = some none ∧
      (∀ j, j < e → ∃ fr : ClockFrame, st.frames.get? j = some (some fr)) ∧
      clockStep F st p = some (ClockState.mk
        (st.frames.set e (some ⟨p, true, 1⟩)) st.pointer (st.faults + 1)
        (bumpLoad st.loads p) st.evicts)) ∧
    (st.frames.findIdx? (fun o => o.isNone) = none →
      clockVictimSteps st.frames st.pointer F ≤ F ∧
      (∀ k, k < clockVictimSteps st.frames st.pointer F →
        refAt st.frames ((st.pointer + k) % F) = true) ∧
      (clockVictimSteps st.frames st.pointer F < F →
        refAt st.frames
          ((st.pointer + clockVictimSteps st.frames st.pointer F) % F) = false) ∧
      clockStep F st p = some (ClockState.mk
        ((clearVisited st.frames st.pointer F
            (clockVictimSteps st.frames st.pointer F)).set
          ((st.pointer + clockVictimSteps st.frames st.pointer F) % F)
          (some ⟨p, true, 1⟩))
        (((st.pointer + clockVictimSteps st.frames st.pointer F) % F + 1) % F)
        (st.faults + 1) (bumpLoad st.loads p) (st.evicts + 1))) := by
  constructor
  · intro e he
    obtain ⟨a, ha, hpa⟩ := findIdx?_some_spec _ st.frames e he
    have helen : e < st.frames.length := (List.get?_eq_some.mp ha).1
    have hanone : a = none := by
      cases a with
      | none => rfl
      | some fr => simp at hpa
    subst hanone
    refine ⟨by omega, ha, ?_, ?_⟩
    · intro j hj
      have hjlen : j < st.frames.length := by omega
      have hjget : st.frames.get? j = some st.frames[j] := by
        rw [List.get?_eq_getElem?, List.getElem?_eq_getElem hjlen]
      have hfalse := findIdx?_some_min _ st.frames e he j hj _ hjget
      cases hval : st.frames[j] with
      | none =>
        rw [hval] at hfalse
        simp at hfalse
      | some fr => exact ⟨fr, by rw [hjget, hval]⟩
    · unfold clockStep
      simp only [hmiss, he]
  · intro hnone
    have hfull : ∀ o ∈ st.frames, o.isSome := by
      intro o ho
      have hof := List.findIdx?_eq_none_iff.mp hnone o ho
      cases o with
      | none => simp at hof
      | some fr => rfl
    obtain ⟨s1, s2⟩ := clockVictimSteps_spec st.frames st.pointer F
    have hle := clockVictimSteps_le st.frames st.pointer F
    refine ⟨hle, s1, s2, ?_⟩
    have hchar := clockScan_char F (2 * F) st.frames st.pointer hlen hfull hptr
      (by omega)
    unfold clockStep
    simp only [hmiss, hnone, hchar]

/-- Witness for C3 on a concrete fault with both frames occupied. -/
theorem clock_fault_placement_spec_witness :
    ([some ⟨"A", true, 1⟩, some ⟨"B", false, 2⟩] :
        List (Option ClockFrame)).length = 2 ∧ 0 < 2 ∧
    lookupFrame [some ⟨"A", true, 1⟩, some ⟨"B", false, 2⟩] "C" = none ∧
    clockStep 2 ⟨[some ⟨"A", true, 1⟩, some ⟨"B", false, 2⟩], 0, 2,
        fun _ => 0, 1⟩ "C" = some (ClockState.mk
      ((clearVisited [some ⟨"A", true, 1⟩, some ⟨"B", false, 2⟩] 0 2
          (clockVictimSteps [some ⟨"A", true, 1⟩, some ⟨"B", false, 2⟩] 0 2)).set
        ((0 + clockVictimSteps [some ⟨"A", true, 1⟩, some ⟨"B", false, 2⟩] 0 2)
          % 2) (some ⟨"C", true, 1⟩))
      (((0 + clockVictimSteps [some ⟨"A", true, 1⟩, some ⟨"B", false, 2⟩] 0 2)
          % 2 + 1) % 2)
      (2 + 1) (bumpLoad (fun _ => 0) "C") (1 + 1)) :=
  ⟨by decide, by decide, by decide,
    ((clock_fault_placement_spec 2
        ⟨[some ⟨"A", true, 1⟩, some ⟨"B", false, 2⟩], 0, 2, fun _ => 0, 1⟩ "C"
        (by decide) (by decide) (by decide)).2 (by decide)).2.2.2⟩


end PagingSim

